import Mathlib

/-
Verification of the synchronization core of PySync (src/PySync.py),
the function sync_folders_for_gui (lines 18-87) together with the
SyncWorker cancellation flag it polls.

Shallow embedding conventions:

* A filesystem path is a list of components (`Path`).  A filesystem is a
  finite association list from paths to entries; the first binding wins,
  and updates prepend, mirroring a mutable store.
* Timestamps (`st_mtime`) are naturals.  File content is abstracted to a
  natural number identifier; `shutil.copy2` copies content and preserves
  the source modification time (metadata-preserving copy).
* The worker's signals progress / total_files / file_copied become the
  `Event` inductive; a run returns the emitted event list and final
  filesystem.
* `worker.is_cancellation_requested()` is a monotone flag set
  asynchronously: it is modelled by a poll counter and a threshold
  `cancelFrom`; the n-th read of the flag returns true iff the threshold
  has been passed.  Each read the Python code performs consumes one poll
  index (the per-directory read of the walk loop is subsumed into the
  per-file read, which yields the same set of observable stopping
  points).
* The thread pool's nondeterministic completion order (as_completed) is
  an environment parameter `completionOrder`; theorems that depend on it
  assume it permutes its argument.  A completed future may have failed:
  the per-task result of shutil.copy2 (success, SameFileError, or any
  other exception) is the environment parameter `outcome`.  Tasks that
  were in flight when cancellation was observed still run to completion;
  which pending tasks had started is the environment parameter `started`.
* os.walk with the default onerror=None silently yields nothing when the
  root is missing or not a directory; `walkFiles` mirrors that.
* Log messages are embedded with their wording but without the quote
  characters the f-strings put around interpolated names; no claim depends
  on that punctuation.
-/

namespace PySync

/-- A filesystem path, as its list of components. -/
abbrev Path := List String

/-- One filesystem object: a regular file with a modification time and an
abstract content identifier, or a directory with a modification time. -/
inductive Entry where
  | file (st_mtime : Nat) (content : Nat)
  | dir (st_mtime : Nat)
deriving DecidableEq, Repr

/-- A snapshot of the filesystem: a finite map from paths to entries,
represented as an association list whose first binding wins. -/
structure FS where
  entries : List (Path × Entry)
deriving DecidableEq, Repr

/-- First-match lookup in an association list of filesystem entries. -/
def lookupEntry : List (Path × Entry) → Path → Option Entry
  | [], _ => none
  | (q, e) :: rest, p => if q = p then some e else lookupEntry rest p

/-- Lookup of the entry at a path. -/
def FS.lookup (fs : FS) (p : Path) : Option Entry :=
  lookupEntry fs.entries p

/-- Embedding of pathlib `Path.exists()`: true for files and directories. -/
def FS.pathExists (fs : FS) (p : Path) : Bool :=
  (fs.lookup p).isSome

/-- Embedding of `stat().st_mtime` (0 when the path is absent; the code
only reads it on paths it has checked). -/
def FS.st_mtime (fs : FS) (p : Path) : Nat :=
  match fs.lookup p with
  | some (Entry.file m _) => m
  | some (Entry.dir m) => m
  | none => 0

/-- Whether the path is a directory (`os.walk` only descends into these). -/
def FS.isDir (fs : FS) (p : Path) : Bool :=
  match fs.lookup p with
  | some (Entry.dir _) => true
  | _ => false

/-- Embedding of a successful `shutil.copy2 src dst`: the destination
receives the source's content and modification time (metadata-preserving
copy).  When the source is not a regular file the model leaves the store
unchanged; that situation is reported through the copy outcome instead. -/
def FS.copy2 (fs : FS) (src dst : Path) : FS :=
  match fs.lookup src with
  | some (Entry.file m c) => ⟨(dst, Entry.file m c) :: fs.entries⟩
  | _ => fs

/-- Last component of a path, as pathlib `.name`. -/
def baseName (p : Path) : String :=
  (p.getLast?).getD ""

/-- Parent of a path, as pathlib `.parent`. -/
def parentDir (p : Path) : Path :=
  p.dropLast

/-- Rendering of a path for log messages. -/
def render (p : Path) : String :=
  String.intercalate "/" p

/-- Embedding of `source_file_path.relative_to(source_dir)`. -/
def relativeTo (p root : Path) : Path :=
  p.drop root.length

/-- Result of one `shutil.copy2` call as observed through
`future.result()`: success, `shutil.SameFileError`, or any other
exception with its message. -/
inductive CopyOutcome where
  | ok
  | sameFile
  | err (msg : String)
deriving DecidableEq, Repr

/-- The environment of one run: everything outside the function's control.
`cancelFrom` is the poll index from which `is_cancellation_requested`
returns true (the flag is monotone).  `outcome` is the result of the copy
of a given (source, destination) pair.  `completionOrder` is the order in
which `as_completed` yields the submitted futures.  `started` tells which
still-pending tasks had already been picked up by a worker when
cancellation was observed; those run to completion even after
`Future.cancel`. -/
structure Env where
  cancelFrom : Option Nat
  outcome : Path → Path → CopyOutcome
  completionOrder : List (Path × Path) → List (Path × Path)
  started : Path → Path → Bool

/-- The n-th read of the worker's cancellation flag. -/
def pollAt (cancelFrom : Option Nat) (n : Nat) : Bool :=
  match cancelFrom with
  | none => false
  | some k => decide (k ≤ n)

/-- Progress events emitted through the worker's Qt signals:
`progress` (LogMessage), `total_files` (TotalDiscovered) and
`file_copied` (FileCompleted). -/
inductive Event where
  | progress (msg : String)
  | total_files (n : Nat)
  | file_copied
deriving DecidableEq, Repr

/-- Message of line 20. -/
def scanningMsg (source_dir : Path) : String :=
  "Scanning for files to sync from " ++ render source_dir ++ "..."

/-- Message of line 53 (dry-run announcement per planned task). -/
def willCopyMsg (src dest : Path) : String :=
  "Will copy " ++ baseName src ++ " to " ++ render (parentDir dest)

/-- Message of line 58. -/
def foundMsg (n : Nat) : String :=
  "Found " ++ toString n ++ " files to copy. Starting..."

/-- Message of line 75 (successful copy). -/
def copiedMsg (source_file : Path) : String :=
  "Copied " ++ baseName source_file

/-- Message of line 79 (per-file failure, naming the file and the error). -/
def errorCopyingMsg (source_file : Path) (e : String) : String :=
  "Error copying " ++ baseName source_file ++ ": " ++ e

/-- Message of line 87 (the catch-all handler around the whole run). -/
def unexpectedMsg (e : String) : String :=
  "An unexpected error occurred: " ++ e

/-- Embedding of lines 34-38: the staleness decision for one
(source file, destination file) pair.  `should_copy` starts true, and is
cleared exactly when the destination exists and the source modification
time is at most the destination's. -/
def should_copy (fs : FS) (source_file_path dest_file_path : Path) : Bool :=
  if fs.pathExists dest_file_path then
    if fs.st_mtime source_file_path ≤ fs.st_mtime dest_file_path then false
    else true
  else true

/-- Embedding of the inner destination loop, lines 31-40: for one source
file, the copy tasks towards each destination root that needs a copy. -/
def planFile (fs : FS) (source_dir : Path) (dest_dirs : List Path)
    (source_file_path : Path) : List (Path × Path) :=
  dest_dirs.filterMap (fun dest_dir =>
    let dest_file_path := dest_dir ++ relativeTo source_file_path source_dir
    if should_copy fs source_file_path dest_file_path then
      some (source_file_path, dest_file_path)
    else none)

/-- Embedding of `os.walk(source_dir)` flattened to the regular files it
reaches, in the stored order.  With the default `onerror=None`, a missing
or non-directory root produces no iterations at all, so the walk of such
a root is empty. -/
def walkFiles (fs : FS) (source_dir : Path) : List Path :=
  if fs.isDir source_dir then
    fs.entries.filterMap (fun pe =>
      match pe.2 with
      | Entry.file _ _ =>
          if source_dir <+: pe.1 ∧ pe.1 ≠ source_dir then some pe.1 else none
      | Entry.dir _ => none)
  else []

/-- Embedding of the scan loop, lines 22-40: walks the source files,
polling the cancellation flag once per file, and accumulates the copy
tasks.  Returns the tasks together with the next free poll index. -/
def scanFiles (env : Env) (fs : FS) (source_dir : Path)
    (dest_dirs : List Path) :
    List Path → Nat → List (Path × Path) × Nat
  | [], n => ([], n)
  | p :: rest, n =>
    if pollAt env.cancelFrom n then ([], n + 1)
    else
      let tasks := planFile fs source_dir dest_dirs p
      let r := scanFiles env fs source_dir dest_dirs rest (n + 1)
      (tasks ++ r.1, r.2)

/-- Embedding of the dry-run loop, lines 50-54: per task, poll, then
announce the planned copy and emit file_copied, without touching the
filesystem. -/
def dryLoop (env : Env) : List (Path × Path) → Nat → List Event × Nat
  | [], n => ([], n)
  | (src, dest) :: rest, n =>
    if pollAt env.cancelFrom n then ([], n + 1)
    else
      let r := dryLoop env rest (n + 1)
      (Event.progress (willCopyMsg src dest) :: Event.file_copied :: r.1, r.2)

/-- One step of `Path.mkdir(parents=True, exist_ok=True)`: create one
missing ancestor, leave an existing directory alone, and fail (like the
OS does) when the prefix is occupied by a regular file.  A prior error is
carried through unchanged. -/
def mkdirStep (acc : FS × Option String) (pre : Path) : FS × Option String :=
  match acc with
  | (fs, some e) => (fs, some e)
  | (fs, none) =>
    if pre = [] then (fs, none)
    else
      match fs.lookup pre with
      | some (Entry.dir _) => (fs, none)
      | some (Entry.file _ _) => (fs, some ("Not a directory: " ++ render pre))
      | none => (⟨(pre, Entry.dir 0) :: fs.entries⟩, none)

/-- Embedding of `dest_path.parent.mkdir(parents=True, exist_ok=True)`:
create every missing prefix of the path, shortest first. -/
def FS.mkdirAll (fs : FS) (p : Path) : FS × Option String :=
  p.inits.foldl mkdirStep (fs, none)

/-- Embedding of the parent-creation loop, lines 61-63: for each planned
task whose destination parent does not exist yet, create it with all its
missing ancestors.  An exception stops the loop and is handed to the
outer catch-all handler. -/
def makeParents (fs : FS) : List (Path × Path) → FS × Option String
  | [] => (fs, none)
  | (_, d) :: rest =>
    let step :=
      if fs.pathExists (parentDir d) then (fs, none)
      else fs.mkdirAll (parentDir d)
    match step with
    | (fs', none) => makeParents fs' rest
    | (fs', some e) => (fs', some e)

/-- The events the result-collection loop emits for one completed task,
lines 73-79: a success logs the copy and emits file_copied; a
SameFileError is suppressed entirely; any other failure logs the file and
the error and emits nothing else. -/
def taskEvents (env : Env) (t : Path × Path) : List Event :=
  match env.outcome t.1 t.2 with
  | CopyOutcome.ok => [Event.progress (copiedMsg t.1), Event.file_copied]
  | CopyOutcome.sameFile => []
  | CopyOutcome.err e => [Event.progress (errorCopyingMsg t.1 e)]

/-- The filesystem effect of one completed task: a successful copy2
writes the destination; a failed one leaves the store unchanged. -/
def taskEffect (env : Env) (fs : FS) (t : Path × Path) : FS :=
  match env.outcome t.1 t.2 with
  | CopyOutcome.ok => fs.copy2 t.1 t.2
  | _ => fs

/-- After cancellation the futures still pending are cancelled, but tasks
a worker had already picked up run to completion: their filesystem effect
still happens, with no event observed by the broken loop. -/
def applyStarted (env : Env) (fs : FS) (ts : List (Path × Path)) : FS :=
  ts.foldl (fun acc t => if env.started t.1 t.2 then taskEffect env acc t else acc) fs

/-- Embedding of the result-collection loop over `as_completed`, lines
67-79, sequentialized along the completion order: each iteration first
polls the flag; on cancellation all pending futures are cancelled (the
started ones still finish) and the loop breaks; otherwise the next
completed task's effect and events are recorded.  Returns the events, the
final filesystem and the next free poll index. -/
def copyLoop (env : Env) : List (Path × Path) → FS → Nat → List Event × FS × Nat
  | [], fs, n => ([], fs, n)
  | t :: rest, fs, n =>
    if pollAt env.cancelFrom n then
      ([], applyStarted env fs (t :: rest), n + 1)
    else
      let r := copyLoop env rest (taskEffect env fs t) (n + 1)
      (taskEvents env t ++ r.1, r.2.1, r.2.2)

/-- Embedding of sync_folders_for_gui, lines 18-87: scan, report the
total, then either simulate (dry run) or create parent directories and
run the copy fan-out, with the cancellation flag polled at the loop
boundaries and the catch-all handler turning an escaped exception into a
log line.  Returns the emitted events and the final filesystem. -/
def sync_folders_for_gui (env : Env) (fs : FS) (source_dir : Path)
    (dest_dirs : List Path) (dry_run : Bool) : List Event × FS :=
  let files := walkFiles fs source_dir
  let scanned := scanFiles env fs source_dir dest_dirs files 0
  let files_to_copy := scanned.1
  let n1 := scanned.2
  if pollAt env.cancelFrom n1 then
    ([Event.progress (scanningMsg source_dir), Event.progress "Scan cancelled."], fs)
  else if dry_run then
    let dried := dryLoop env files_to_copy (n1 + 1)
    ([Event.progress (scanningMsg source_dir),
      Event.total_files files_to_copy.length,
      Event.progress "--- DRY RUN MODE ENABLED ---"] ++ dried.1 ++
      [Event.progress "--- DRY RUN MODE CONCLUDED ---"], fs)
  else
    match makeParents fs files_to_copy with
    | (fs1, some e) =>
      ([Event.progress (scanningMsg source_dir),
        Event.total_files files_to_copy.length,
        Event.progress (foundMsg files_to_copy.length),
        Event.progress (unexpectedMsg e)], fs1)
    | (fs1, none) =>
      let pending := env.completionOrder files_to_copy
      let copied := copyLoop env pending fs1 (n1 + 1)
      let finalMsg :=
        if pollAt env.cancelFrom copied.2.2 then "Synchronization cancelled by user."
        else "Synchronization process completed successfully."
      ([Event.progress (scanningMsg source_dir),
        Event.total_files files_to_copy.length,
        Event.progress (foundMsg files_to_copy.length)] ++ copied.1 ++
        [Event.progress finalMsg], copied.2.1)

/-- The environment of an undisturbed run: never cancelled, every copy
succeeds, futures complete in submission order. -/
def envId : Env where
  cancelFrom := none
  outcome := fun _ _ => CopyOutcome.ok
  completionOrder := id
  started := fun _ _ => false

/-! ### Basic lemmas about the store -/

theorem lookupEntry_cons (q : Path) (e : Entry) (rest : List (Path × Entry))
    (p : Path) :
    lookupEntry ((q, e) :: rest) p = if q = p then some e else lookupEntry rest p := rfl

theorem lookupEntry_append_of_ne (new old : List (Path × Entry)) (p : Path)
    (h : ∀ pe ∈ new, pe.1 ≠ p) :
    lookupEntry (new ++ old) p = lookupEntry old p := by
  induction new with
  | nil => rfl
  | cons pe rest ih =>
    have hne : pe.1 ≠ p := h pe (List.mem_cons_self pe rest)
    simp only [List.cons_append, lookupEntry]
    rw [if_neg (by simpa using hne)]
    exact ih (fun x hx => h x (List.mem_cons_of_mem pe hx))

theorem FS.lookup_copy2_ne (fs : FS) (s d q : Path) (h : q ≠ d) :
    (fs.copy2 s d).lookup q = fs.lookup q := by
  unfold FS.copy2
  cases hs : fs.lookup s with
  | none => rfl
  | some e =>
    cases e with
    | dir m => rfl
    | file m c =>
      show lookupEntry ((d, Entry.file m c) :: fs.entries) q = _
      rw [lookupEntry_cons, if_neg (fun hd => h hd.symm)]
      rfl

theorem FS.lookup_copy2_eq (fs : FS) (s d : Path) (m c : Nat)
    (h : fs.lookup s = some (Entry.file m c)) :
    (fs.copy2 s d).lookup d = some (Entry.file m c) := by
  unfold FS.copy2
  rw [h]
  show lookupEntry ((d, Entry.file m c) :: fs.entries) d = _
  rw [lookupEntry_cons, if_pos rfl]

theorem taskEffect_lookup_ne (env : Env) (fs : FS) (t : Path × Path) (q : Path)
    (h : q ≠ t.2) : (taskEffect env fs t).lookup q = fs.lookup q := by
  unfold taskEffect
  cases env.outcome t.1 t.2 with
  | ok => exact fs.lookup_copy2_ne t.1 t.2 q h
  | sameFile => rfl
  | err e => rfl

theorem foldl_taskEffect_lookup (env : Env) (l : List (Path × Path)) (fs : FS)
    (q : Path) (h : ∀ t ∈ l, t.2 ≠ q) :
    (l.foldl (taskEffect env) fs).lookup q = fs.lookup q := by
  induction l generalizing fs with
  | nil => rfl
  | cons t rest ih =>
    have h1 : t.2 ≠ q := h t (List.mem_cons_self t rest)
    have h2 : ∀ u ∈ rest, u.2 ≠ q := fun u hu => h u (List.mem_cons_of_mem t hu)
    simp only [List.foldl_cons]
    rw [ih (taskEffect env fs t) h2, taskEffect_lookup_ne env fs t q (fun hq => h1 hq.symm)]

theorem applyStarted_lookup (env : Env) (fs : FS) (l : List (Path × Path))
    (q : Path) (h : ∀ t ∈ l, env.started t.1 t.2 = true → t.2 ≠ q) :
    (applyStarted env fs l).lookup q = fs.lookup q := by
  unfold applyStarted
  induction l generalizing fs with
  | nil => rfl
  | cons t rest ih =>
    simp only [List.foldl_cons]
    rw [ih _ (fun u hu => h u (List.mem_cons_of_mem t hu))]
    by_cases hst : env.started t.1 t.2
    · rw [if_pos hst]
      exact taskEffect_lookup_ne env fs t q
        (fun hq => h t (List.mem_cons_self t rest) hst hq.symm)
    · rw [if_neg hst]

theorem applyStarted_of_none (env : Env) (fs : FS) (l : List (Path × Path))
    (h : ∀ s d, env.started s d = false) :
    applyStarted env fs l = fs := by
  unfold applyStarted
  induction l generalizing fs with
  | nil => rfl
  | cons t rest ih =>
    simp only [List.foldl_cons, h t.1 t.2, if_neg Bool.false_ne_true, ih]

/-! ### The cancellation flag -/

theorem pollAt_none (n : Nat) : pollAt none n = false := rfl

theorem pollAt_mono (c : Option Nat) (n m : Nat) (h : pollAt c n = true)
    (hnm : n ≤ m) : pollAt c m = true := by
  cases c with
  | none => simp [pollAt] at h
  | some k =>
    simp only [pollAt, decide_eq_true_eq] at h ⊢
    exact le_trans h hnm

theorem pollAt_some_iff (k n : Nat) : pollAt (some k) n = true ↔ k ≤ n := by
  simp [pollAt]

/-! ### The staleness decision -/

theorem should_copy_iff (fs : FS) (s d : Path) :
    should_copy fs s d = true ↔
      fs.pathExists d = false ∨ fs.st_mtime d < fs.st_mtime s := by
  unfold should_copy
  by_cases he : fs.pathExists d
  · rw [if_pos he]
    by_cases hle : fs.st_mtime s ≤ fs.st_mtime d
    · simp [hle, he, Nat.not_lt_of_le hle]
    · simp [hle, Nat.lt_of_not_le hle]
  · simp [he]

theorem should_copy_of_eq_mtime (fs : FS) (s d : Path)
    (he : fs.pathExists d = true) (hm : fs.st_mtime s = fs.st_mtime d) :
    should_copy fs s d = false := by
  unfold should_copy
  rw [if_pos he, if_pos (le_of_eq hm)]

theorem pathExists_of_not_should_copy (fs : FS) (s d : Path)
    (h : should_copy fs s d = false) : fs.pathExists d = true := by
  by_contra hne
  have : fs.pathExists d = false := by
    cases hb : fs.pathExists d
    · rfl
    · exact absurd hb hne
  unfold should_copy at h
  rw [this] at h
  simp at h

/-! ### Plan membership -/

theorem planFile_mem (fs : FS) (source_dir : Path) (dest_dirs : List Path)
    (p : Path) (s d : Path) :
    (s, d) ∈ planFile fs source_dir dest_dirs p ↔
      s = p ∧ ∃ root ∈ dest_dirs, d = root ++ relativeTo p source_dir ∧
        should_copy fs p d = true := by
  unfold planFile
  rw [List.mem_filterMap]
  constructor
  · rintro ⟨root, hroot, hsome⟩
    simp only at hsome
    by_cases hc : should_copy fs p (root ++ relativeTo p source_dir) = true
    · rw [if_pos hc, Option.some.injEq, Prod.mk.injEq] at hsome
      exact ⟨hsome.1.symm, root, hroot, hsome.2.symm, hsome.2 ▸ hc⟩
    · rw [if_neg hc] at hsome
      exact absurd hsome (by simp)
  · rintro ⟨hs, root, hroot, hd, hc⟩
    refine ⟨root, hroot, ?_⟩
    simp only
    subst hs
    subst hd
    rw [if_pos hc]

theorem scanFiles_mem (env : Env) (fs : FS) (source_dir : Path)
    (dest_dirs : List Path) (files : List Path) (n : Nat) (s d : Path)
    (h : (s, d) ∈ (scanFiles env fs source_dir dest_dirs files n).1) :
    ∃ p ∈ files, (s, d) ∈ planFile fs source_dir dest_dirs p := by
  induction files generalizing n with
  | nil => simp [scanFiles] at h
  | cons p rest ih =>
    simp only [scanFiles] at h
    by_cases hp : pollAt env.cancelFrom n = true
    · rw [if_pos hp] at h
      simp at h
    · rw [if_neg hp] at h
      simp only [List.mem_append] at h
      cases h with
      | inl h1 => exact ⟨p, List.mem_cons_self p rest, h1⟩
      | inr h2 =>
        obtain ⟨q, hq, hmem⟩ := ih (n + 1) h2
        exact ⟨q, List.mem_cons_of_mem p hq, hmem⟩

theorem scanFiles_run_all (env : Env) (fs : FS) (source_dir : Path)
    (dest_dirs : List Path) (files : List Path) (n : Nat)
    (h : ∀ j, j < files.length → pollAt env.cancelFrom (n + j) = false) :
    scanFiles env fs source_dir dest_dirs files n =
      (files.flatMap (planFile fs source_dir dest_dirs), n + files.length) := by
  induction files generalizing n with
  | nil => simp [scanFiles]
  | cons p rest ih =>
    have h0 : pollAt env.cancelFrom n = false := by
      have := h 0 (Nat.succ_pos _)
      simpa using this
    simp only [scanFiles, h0, Bool.false_eq_true, if_false]
    rw [ih (n + 1) (fun j hj => by
      have := h (j + 1) (by simpa using Nat.succ_lt_succ hj)
      simpa [Nat.add_assoc, Nat.add_comm 1 j] using this)]
    simp [List.flatMap_cons, List.length_cons]
    omega

/-! ### The dry-run and copy loops -/

theorem dryLoop_count_le (env : Env) (l : List (Path × Path)) (n : Nat) :
    ((dryLoop env l n).1).count Event.file_copied ≤ l.length := by
  induction l generalizing n with
  | nil => simp [dryLoop]
  | cons t rest ih =>
    obtain ⟨src, dest⟩ := t
    simp only [dryLoop]
    by_cases hp : pollAt env.cancelFrom n = true
    · rw [if_pos hp]
      simp
    · rw [if_neg hp]
      have hcount := ih (n + 1)
      simp only [List.count_cons, List.length_cons]
      simp
      omega

theorem dryLoop_no_total (env : Env) (l : List (Path × Path)) (n m : Nat) :
    Event.total_files m ∉ (dryLoop env l n).1 := by
  induction l generalizing n with
  | nil => simp [dryLoop]
  | cons t rest ih =>
    obtain ⟨src, dest⟩ := t
    simp only [dryLoop]
    by_cases hp : pollAt env.cancelFrom n = true
    · rw [if_pos hp]
      simp
    · rw [if_neg hp]
      intro hmem
      simp only [List.mem_cons] at hmem
      rcases hmem with h1 | h1 | h1
      · exact Event.noConfusion h1
      · exact Event.noConfusion h1
      · exact ih (n + 1) h1

theorem taskEvents_count (env : Env) (t : Path × Path) :
    (taskEvents env t).count Event.file_copied =
      if env.outcome t.1 t.2 = CopyOutcome.ok then 1 else 0 := by
  unfold taskEvents
  cases env.outcome t.1 t.2 <;> simp [List.count_cons]

theorem taskEvents_no_total (env : Env) (t : Path × Path) (m : Nat) :
    Event.total_files m ∉ taskEvents env t := by
  unfold taskEvents
  cases env.outcome t.1 t.2 <;> simp

theorem flatMap_taskEvents_count (env : Env) (l : List (Path × Path)) :
    (l.flatMap (taskEvents env)).count Event.file_copied =
      l.countP (fun t => env.outcome t.1 t.2 == CopyOutcome.ok) := by
  induction l with
  | nil => simp
  | cons t rest ih =>
    rw [List.flatMap_cons, List.count_append, ih, List.countP_cons, taskEvents_count]
    by_cases hok : env.outcome t.1 t.2 = CopyOutcome.ok
    · simp [hok, Nat.add_comm]
    · simp only [if_neg hok]
      have : (env.outcome t.1 t.2 == CopyOutcome.ok) = false := by
        simpa using hok
      simp [this]

theorem copyLoop_run_all (env : Env) (l : List (Path × Path)) (fs : FS) (n : Nat)
    (h : ∀ j, j < l.length → pollAt env.cancelFrom (n + j) = false) :
    copyLoop env l fs n =
      (l.flatMap (taskEvents env), l.foldl (taskEffect env) fs, n + l.length) := by
  induction l generalizing fs n with
  | nil => simp [copyLoop]
  | cons t rest ih =>
    have h0 : pollAt env.cancelFrom n = false := by simpa using h 0 (Nat.succ_pos _)
    simp only [copyLoop, h0, Bool.false_eq_true, if_false]
    rw [ih (taskEffect env fs t) (n + 1) (fun j hj => by
      have := h (j + 1) (by simpa using Nat.succ_lt_succ hj)
      simpa [Nat.add_assoc, Nat.add_comm 1 j] using this)]
    simp [List.flatMap_cons, List.length_cons]
    omega

theorem copyLoop_cancel_at (env : Env) (l : List (Path × Path)) (fs : FS)
    (n k : Nat) (hc : env.cancelFrom = some (n + k)) (hk : k < l.length) :
    copyLoop env l fs n =
      ((l.take k).flatMap (taskEvents env),
       applyStarted env ((l.take k).foldl (taskEffect env) fs) (l.drop k),
       n + k + 1) := by
  induction l generalizing fs n k with
  | nil => simp at hk
  | cons t rest ih =>
    cases k with
    | zero =>
      have hp : pollAt env.cancelFrom n = true := by
        rw [hc, pollAt_some_iff]
        omega
      simp [copyLoop, hp]
    | succ k' =>
      have hp : pollAt env.cancelFrom n = false := by
        rw [hc]
        simp only [pollAt, decide_eq_false_iff_not]
        omega
      simp only [copyLoop, hp, Bool.false_eq_true, if_false]
      have hc' : env.cancelFrom = some ((n + 1) + k') := by
        rw [hc]
        congr 1
        omega
      have hk' : k' < rest.length := by simpa using Nat.lt_of_succ_lt_succ hk
      rw [ih (taskEffect env fs t) (n + 1) k' hc' hk']
      simp only [List.take_succ_cons, List.drop_succ_cons, List.flatMap_cons,
        List.foldl_cons]
      have harith : n + 1 + k' + 1 = n + (k' + 1) + 1 := by omega
      rw [harith]

theorem copyLoop_count_le (env : Env) (l : List (Path × Path)) (fs : FS) (n : Nat) :
    ((copyLoop env l fs n).1).count Event.file_copied ≤ l.length := by
  induction l generalizing fs n with
  | nil => simp [copyLoop]
  | cons t rest ih =>
    simp only [copyLoop]
    by_cases hp : pollAt env.cancelFrom n = true
    · rw [if_pos hp]
      simp
    · rw [if_neg hp]
      simp only [List.count_append, List.length_cons]
      have h1 : (taskEvents env t).count Event.file_copied ≤ 1 := by
        rw [taskEvents_count]
        split <;> omega
      have h2 := ih (taskEffect env fs t) (n + 1)
      omega

theorem copyLoop_no_total (env : Env) (l : List (Path × Path)) (fs : FS)
    (n m : Nat) : Event.total_files m ∉ (copyLoop env l fs n).1 := by
  induction l generalizing fs n with
  | nil => simp [copyLoop]
  | cons t rest ih =>
    simp only [copyLoop]
    by_cases hp : pollAt env.cancelFrom n = true
    · rw [if_pos hp]
      simp
    · rw [if_neg hp]
      intro hmem
      rcases List.mem_append.mp hmem with h1 | h1
      · exact taskEvents_no_total env t m h1
      · exact ih (taskEffect env fs t) (n + 1) h1

theorem copyLoop_counter_ge (env : Env) (l : List (Path × Path)) (fs : FS)
    (n : Nat) : n ≤ (copyLoop env l fs n).2.2 := by
  induction l generalizing fs n with
  | nil => simp [copyLoop]
  | cons t rest ih =>
    simp only [copyLoop]
    by_cases hp : pollAt env.cancelFrom n = true
    · rw [if_pos hp]
      exact Nat.le_succ n
    · rw [if_neg hp]
      have := ih (taskEffect env fs t) (n + 1)
      calc n ≤ n + 1 := Nat.le_succ n
        _ ≤ _ := this

/-! ### Parent-directory creation -/

theorem foldl_mkdirStep_absorb (l : List Path) (fs : FS) (e : String) :
    l.foldl mkdirStep (fs, some e) = (fs, some e) := by
  induction l with
  | nil => rfl
  | cons p rest ih =>
    simp only [List.foldl_cons]
    exact ih

theorem mkdirStep_lookup_mono (acc : FS × Option String) (pre q : Path) (e : Entry)
    (h : acc.1.lookup q = some e) : ((mkdirStep acc pre).1).lookup q = some e := by
  obtain ⟨fs, err⟩ := acc
  cases err with
  | some e' => exact h
  | none =>
    simp only [mkdirStep]
    by_cases hpre : pre = []
    · rw [if_pos hpre]
      exact h
    · rw [if_neg hpre]
      cases hl : fs.lookup pre with
      | none =>
        show FS.lookup ⟨(pre, Entry.dir 0) :: fs.entries⟩ q = some e
        show lookupEntry ((pre, Entry.dir 0) :: fs.entries) q = some e
        rw [lookupEntry_cons]
        rw [if_neg (fun hq => by rw [hq] at hl; rw [hl] at h; exact Option.noConfusion h)]
        exact h
      | some entry =>
        cases entry with
        | dir m => exact h
        | file m c => exact h

theorem foldl_mkdirStep_lookup_mono (l : List Path) (acc : FS × Option String)
    (q : Path) (e : Entry) (h : acc.1.lookup q = some e) :
    (((l.foldl mkdirStep acc).1)).lookup q = some e := by
  induction l generalizing acc with
  | nil => exact h
  | cons p rest ih =>
    simp only [List.foldl_cons]
    exact ih (mkdirStep acc p) (mkdirStep_lookup_mono acc p q e h)

theorem mkdirAll_lookup_mono (fs : FS) (p q : Path) (e : Entry)
    (h : fs.lookup q = some e) : ((fs.mkdirAll p).1).lookup q = some e :=
  foldl_mkdirStep_lookup_mono p.inits (fs, none) q e h

theorem makeParents_lookup_mono (fs : FS) (l : List (Path × Path)) (q : Path)
    (e : Entry) (h : fs.lookup q = some e) :
    ((makeParents fs l).1).lookup q = some e := by
  induction l generalizing fs with
  | nil => exact h
  | cons t rest ih =>
    obtain ⟨s, d⟩ := t
    simp only [makeParents]
    by_cases hex : fs.pathExists (parentDir d)
    · rw [if_pos hex]
      exact ih fs h
    · rw [if_neg hex]
      cases hmk : fs.mkdirAll (parentDir d) with
      | mk fs' err =>
        have hq : fs'.lookup q = some e := by
          have := mkdirAll_lookup_mono fs (parentDir d) q e h
          rw [hmk] at this
          exact this
        cases err with
        | none => exact ih fs' hq
        | some e' => exact hq

theorem mkdirStep_exists_after (fs : FS) (pre : Path) (hp : pre ≠ [])
    (hok : (mkdirStep (fs, none) pre).2 = none) :
    ((mkdirStep (fs, none) pre).1).pathExists pre = true := by
  simp only [mkdirStep, if_neg hp] at hok ⊢
  cases hl : fs.lookup pre with
  | none =>
    simp only [hl]
    show (FS.lookup ⟨(pre, Entry.dir 0) :: fs.entries⟩ pre).isSome = true
    show (lookupEntry ((pre, Entry.dir 0) :: fs.entries) pre).isSome = true
    rw [lookupEntry_cons, if_pos rfl]
    rfl
  | some entry =>
    cases entry with
    | dir m =>
      simp only [hl]
      show (fs.lookup pre).isSome = true
      rw [hl]
      rfl
    | file m c =>
      rw [hl] at hok
      exact Option.noConfusion hok

theorem foldl_mkdirStep_post (l : List Path) (fs : FS)
    (hok : (l.foldl mkdirStep (fs, none)).2 = none) :
    ∀ q ∈ l, q ≠ [] → ((l.foldl mkdirStep (fs, none)).1).pathExists q = true := by
  induction l generalizing fs with
  | nil => intro q hq; simp at hq
  | cons p rest ih =>
    intro q hq hqne
    simp only [List.foldl_cons] at hok ⊢
    cases hstep : mkdirStep (fs, none) p with
    | mk fs1 err =>
      cases err with
      | some e =>
        rw [hstep, foldl_mkdirStep_absorb] at hok
        exact Option.noConfusion hok
      | none =>
        rw [hstep] at hok
        rcases List.mem_cons.mp hq with hq1 | hq1
        · have h1 : ((mkdirStep (fs, none) p).1).pathExists p = true :=
            mkdirStep_exists_after fs p (hq1 ▸ hqne) (by rw [hstep])
          rw [hstep] at h1
          have h2 : ∃ e, fs1.lookup p = some e := by
            unfold FS.pathExists at h1
            exact Option.isSome_iff_exists.mp h1
          obtain ⟨e, he⟩ := h2
          unfold FS.pathExists
          rw [hq1, foldl_mkdirStep_lookup_mono rest (fs1, none) p e he]
          rfl
        · exact ih fs1 hok q hq1 hqne

theorem mkdirAll_post (fs : FS) (p : Path) (hp : p ≠ [])
    (hok : (fs.mkdirAll p).2 = none) :
    ((fs.mkdirAll p).1).pathExists p = true :=
  foldl_mkdirStep_post p.inits fs hok p
    ((List.mem_inits p p).mpr (List.prefix_refl p)) hp

theorem makeParents_pathExists_mono (fs : FS) (l : List (Path × Path)) (q : Path)
    (h : fs.pathExists q = true) : ((makeParents fs l).1).pathExists q = true := by
  obtain ⟨e, he⟩ := Option.isSome_iff_exists.mp h
  unfold FS.pathExists
  rw [makeParents_lookup_mono fs l q e he]
  rfl

theorem makeParents_post (fs : FS) (l : List (Path × Path))
    (hok : (makeParents fs l).2 = none) :
    ∀ t ∈ l, parentDir t.2 ≠ [] →
      ((makeParents fs l).1).pathExists (parentDir t.2) = true := by
  induction l generalizing fs with
  | nil => intro t ht; simp at ht
  | cons u rest ih =>
    intro t ht htne
    obtain ⟨s, d⟩ := u
    simp only [makeParents] at hok ⊢
    by_cases hex : fs.pathExists (parentDir d)
    · rw [if_pos hex] at hok ⊢
      rcases List.mem_cons.mp ht with ht1 | ht1
      · subst ht1
        exact makeParents_pathExists_mono fs rest (parentDir d) hex
      · exact ih fs hok t ht1 htne
    · rw [if_neg hex] at hok ⊢
      cases hmk : fs.mkdirAll (parentDir d) with
      | mk fs1 err =>
        rw [hmk] at hok
        cases err with
        | some e => exact Option.noConfusion hok
        | none =>
          rcases List.mem_cons.mp ht with ht1 | ht1
          · have htd : parentDir d ≠ [] := by
              rw [ht1] at htne
              exact htne
            have h1 : fs1.pathExists (parentDir d) = true := by
              have h2 := mkdirAll_post fs (parentDir d) htd (by rw [hmk])
              rw [hmk] at h2
              exact h2
            have h3 := makeParents_pathExists_mono fs1 rest (parentDir d) h1
            rw [ht1]
            exact h3
          · exact ih fs1 hok t ht1 htne

/-! ### Entry-structure (frame) lemmas: what a run can add to the store -/

theorem foldl_mkdirStep_entries (l : List Path) (acc : FS × Option String) :
    ∃ new, ((l.foldl mkdirStep acc).1).entries = new ++ acc.1.entries ∧
      ∀ pe ∈ new, pe.2 = Entry.dir 0 ∧ pe.1 ∈ l := by
  induction l generalizing acc with
  | nil => exact ⟨[], rfl, by simp⟩
  | cons p rest ih =>
    simp only [List.foldl_cons]
    obtain ⟨new2, hnew2, hprop2⟩ := ih (mkdirStep acc p)
    have hstep : ∃ new1, ((mkdirStep acc p).1).entries = new1 ++ acc.1.entries ∧
        ∀ pe ∈ new1, pe.2 = Entry.dir 0 ∧ pe.1 = p := by
      obtain ⟨fs, err⟩ := acc
      cases err with
      | some e => exact ⟨[], rfl, by simp⟩
      | none =>
        simp only [mkdirStep]
        by_cases hpre : p = []
        · rw [if_pos hpre]
          exact ⟨[], rfl, by simp⟩
        · rw [if_neg hpre]
          cases hl : fs.lookup p with
          | none => exact ⟨[(p, Entry.dir 0)], rfl, by simp⟩
          | some entry =>
            cases entry with
            | dir m => exact ⟨[], rfl, by simp⟩
            | file m c => exact ⟨[], rfl, by simp⟩
    obtain ⟨new1, hnew1, hprop1⟩ := hstep
    refine ⟨new2 ++ new1, by rw [hnew2, hnew1, List.append_assoc], ?_⟩
    intro pe hpe
    rcases List.mem_append.mp hpe with hm | hm
    · obtain ⟨h1, h2⟩ := hprop2 pe hm
      exact ⟨h1, List.mem_cons_of_mem p h2⟩
    · obtain ⟨h1, h2⟩ := hprop1 pe hm
      exact ⟨h1, h2 ▸ List.mem_cons_self p rest⟩

theorem mkdirAll_entries (fs : FS) (p : Path) :
    ∃ new, ((fs.mkdirAll p).1).entries = new ++ fs.entries ∧
      ∀ pe ∈ new, pe.2 = Entry.dir 0 ∧ pe.1 <+: p := by
  obtain ⟨new, hnew, hprop⟩ := foldl_mkdirStep_entries p.inits (fs, none)
  exact ⟨new, hnew, fun pe hpe =>
    ⟨(hprop pe hpe).1, (List.mem_inits pe.1 p).mp (hprop pe hpe).2⟩⟩

theorem makeParents_entries (fs : FS) (l : List (Path × Path)) :
    ∃ new, ((makeParents fs l).1).entries = new ++ fs.entries ∧
      ∀ pe ∈ new, pe.2 = Entry.dir 0 ∧ ∃ t ∈ l, pe.1 <+: parentDir t.2 := by
  induction l generalizing fs with
  | nil => exact ⟨[], rfl, by simp⟩
  | cons u rest ih =>
    obtain ⟨s, d⟩ := u
    simp only [makeParents]
    by_cases hex : fs.pathExists (parentDir d)
    · rw [if_pos hex]
      obtain ⟨new, hnew, hprop⟩ := ih fs
      exact ⟨new, hnew, fun pe hpe =>
        ⟨(hprop pe hpe).1,
         (hprop pe hpe).2.elim (fun t ht => ⟨t, List.mem_cons_of_mem _ ht.1, ht.2⟩)⟩⟩
    · rw [if_neg hex]
      cases hmk : fs.mkdirAll (parentDir d) with
      | mk fs1 err =>
        have hstep : ∃ new1, fs1.entries = new1 ++ fs.entries ∧
            ∀ pe ∈ new1, pe.2 = Entry.dir 0 ∧ pe.1 <+: parentDir d := by
          obtain ⟨new1, hnew1, hprop1⟩ := mkdirAll_entries fs (parentDir d)
          rw [hmk] at hnew1
          exact ⟨new1, hnew1, hprop1⟩
        obtain ⟨new1, hnew1, hprop1⟩ := hstep
        cases err with
        | some e =>
          refine ⟨new1, hnew1, fun pe hpe => ⟨(hprop1 pe hpe).1,
            ⟨(s, d), List.mem_cons_self _ _, (hprop1 pe hpe).2⟩⟩⟩
        | none =>
          obtain ⟨new2, hnew2, hprop2⟩ := ih fs1
          refine ⟨new2 ++ new1, by rw [hnew2, hnew1, List.append_assoc], ?_⟩
          intro pe hpe
          rcases List.mem_append.mp hpe with hm | hm
          · exact ⟨(hprop2 pe hm).1,
              (hprop2 pe hm).2.elim (fun t ht => ⟨t, List.mem_cons_of_mem _ ht.1, ht.2⟩)⟩
          · exact ⟨(hprop1 pe hm).1, ⟨(s, d), List.mem_cons_self _ _, (hprop1 pe hm).2⟩⟩

theorem copy2_entries (fs : FS) (s d : Path) :
    ∃ new, (fs.copy2 s d).entries = new ++ fs.entries ∧
      ∀ pe ∈ new, pe.1 = d ∧ ∃ m c, pe.2 = Entry.file m c := by
  unfold FS.copy2
  cases hs : fs.lookup s with
  | none => exact ⟨[], rfl, by simp⟩
  | some e =>
    cases e with
    | dir m => exact ⟨[], rfl, by simp⟩
    | file m c => exact ⟨[(d, Entry.file m c)], rfl, by simp⟩

theorem taskEffect_entries (env : Env) (fs : FS) (t : Path × Path) :
    ∃ new, (taskEffect env fs t).entries = new ++ fs.entries ∧
      ∀ pe ∈ new, pe.1 = t.2 ∧ ∃ m c, pe.2 = Entry.file m c := by
  unfold taskEffect
  cases env.outcome t.1 t.2 with
  | ok => exact copy2_entries fs t.1 t.2
  | sameFile => exact ⟨[], rfl, by simp⟩
  | err e => exact ⟨[], rfl, by simp⟩

theorem foldl_taskEffect_entries (env : Env) (l : List (Path × Path)) (fs : FS) :
    ∃ new, ((l.foldl (taskEffect env) fs)).entries = new ++ fs.entries ∧
      ∀ pe ∈ new, (∃ t ∈ l, pe.1 = t.2) ∧ ∃ m c, pe.2 = Entry.file m c := by
  induction l generalizing fs with
  | nil => exact ⟨[], rfl, by simp⟩
  | cons t rest ih =>
    simp only [List.foldl_cons]
    obtain ⟨new1, hnew1, hprop1⟩ := taskEffect_entries env fs t
    obtain ⟨new2, hnew2, hprop2⟩ := ih (taskEffect env fs t)
    rw [hnew1] at hnew2
    refine ⟨new2 ++ new1, by rw [hnew2, List.append_assoc], ?_⟩
    intro pe hpe
    rcases List.mem_append.mp hpe with hm | hm
    · exact ⟨(hprop2 pe hm).1.elim (fun u hu => ⟨u, List.mem_cons_of_mem _ hu.1, hu.2⟩),
        (hprop2 pe hm).2⟩
    · exact ⟨⟨t, List.mem_cons_self _ _, (hprop1 pe hm).1⟩, (hprop1 pe hm).2⟩

theorem applyStarted_entries (env : Env) (fs : FS) (l : List (Path × Path)) :
    ∃ new, (applyStarted env fs l).entries = new ++ fs.entries ∧
      ∀ pe ∈ new, (∃ t ∈ l, pe.1 = t.2) ∧ ∃ m c, pe.2 = Entry.file m c := by
  unfold applyStarted
  induction l generalizing fs with
  | nil => exact ⟨[], rfl, by simp⟩
  | cons t rest ih =>
    simp only [List.foldl_cons]
    have hstep : ∃ new1, ((if env.started t.1 t.2 then taskEffect env fs t else fs)).entries
        = new1 ++ fs.entries ∧ ∀ pe ∈ new1, pe.1 = t.2 ∧ ∃ m c, pe.2 = Entry.file m c := by
      by_cases hst : env.started t.1 t.2
      · rw [if_pos hst]
        exact taskEffect_entries env fs t
      · rw [if_neg hst]
        exact ⟨[], rfl, by simp⟩
    obtain ⟨new1, hnew1, hprop1⟩ := hstep
    obtain ⟨new2, hnew2, hprop2⟩ := ih (if env.started t.1 t.2 then taskEffect env fs t else fs)
    rw [hnew1] at hnew2
    refine ⟨new2 ++ new1, by rw [hnew2, List.append_assoc], ?_⟩
    intro pe hpe
    rcases List.mem_append.mp hpe with hm | hm
    · exact ⟨(hprop2 pe hm).1.elim (fun u hu => ⟨u, List.mem_cons_of_mem _ hu.1, hu.2⟩),
        (hprop2 pe hm).2⟩
    · exact ⟨⟨t, List.mem_cons_self _ _, (hprop1 pe hm).1⟩, (hprop1 pe hm).2⟩

theorem copyLoop_entries (env : Env) (l : List (Path × Path)) (fs : FS) (n : Nat) :
    ∃ new, ((copyLoop env l fs n).2.1).entries = new ++ fs.entries ∧
      ∀ pe ∈ new, (∃ t ∈ l, pe.1 = t.2) ∧ ∃ m c, pe.2 = Entry.file m c := by
  induction l generalizing fs n with
  | nil => exact ⟨[], rfl, by simp⟩
  | cons t rest ih =>
    simp only [copyLoop]
    by_cases hp : pollAt env.cancelFrom n = true
    · rw [if_pos hp]
      exact applyStarted_entries env fs (t :: rest)
    · rw [if_neg hp]
      obtain ⟨new1, hnew1, hprop1⟩ := taskEffect_entries env fs t
      obtain ⟨new2, hnew2, hprop2⟩ := ih (taskEffect env fs t) (n + 1)
      rw [hnew1] at hnew2
      refine ⟨new2 ++ new1, by simpa [List.append_assoc] using hnew2, ?_⟩
      intro pe hpe
      rcases List.mem_append.mp hpe with hm | hm
      · exact ⟨(hprop2 pe hm).1.elim (fun u hu => ⟨u, List.mem_cons_of_mem _ hu.1, hu.2⟩),
          (hprop2 pe hm).2⟩
      · exact ⟨⟨t, List.mem_cons_self _ _, (hprop1 pe hm).1⟩, (hprop1 pe hm).2⟩

/-! ### The source walk -/

theorem walkFiles_of_not_dir (fs : FS) (source_dir : Path)
    (h : fs.isDir source_dir = false) : walkFiles fs source_dir = [] := by
  simp [walkFiles, h]

theorem walkFiles_mem (fs : FS) (source_dir p : Path)
    (h : p ∈ walkFiles fs source_dir) : source_dir <+: p ∧ p ≠ source_dir := by
  unfold walkFiles at h
  by_cases hdir : fs.isDir source_dir
  · rw [if_pos hdir] at h
    obtain ⟨pe, _, hpe⟩ := List.mem_filterMap.mp h
    cases he : pe.2 with
    | file m c =>
      rw [he] at hpe
      by_cases hcond : source_dir <+: pe.1 ∧ pe.1 ≠ source_dir
      · rw [if_pos hcond] at hpe
        obtain rfl : pe.1 = p := by simpa using hpe
        exact hcond
      · rw [if_neg hcond] at hpe
        exact absurd hpe (by simp)
    | dir m =>
      rw [he] at hpe
      exact absurd hpe (by simp)
  · rw [if_neg hdir] at h
    simp at h

theorem walk_append_rel (fs : FS) (source_dir p : Path)
    (h : p ∈ walkFiles fs source_dir) :
    source_dir ++ relativeTo p source_dir = p := by
  obtain ⟨⟨t, rfl⟩, _⟩ := walkFiles_mem fs source_dir p h
  unfold relativeTo
  rw [List.drop_left]

theorem lookup_extend (fs : FS) (new : List (Path × Entry)) (q : Path)
    (h : ∀ pe ∈ new, pe.1 ≠ q) :
    FS.lookup ⟨new ++ fs.entries⟩ q = fs.lookup q :=
  lookupEntry_append_of_ne new fs.entries q h

theorem walkFiles_extend (fs : FS) (new : List (Path × Entry)) (source_dir : Path)
    (h : ∀ pe ∈ new, ¬ source_dir <+: pe.1) :
    walkFiles ⟨new ++ fs.entries⟩ source_dir = walkFiles fs source_dir := by
  have hsrc : FS.lookup ⟨new ++ fs.entries⟩ source_dir = fs.lookup source_dir :=
    lookup_extend fs new source_dir
      (fun pe hpe hq => h pe hpe (hq ▸ List.prefix_refl source_dir))
  have hdir : FS.isDir ⟨new ++ fs.entries⟩ source_dir = fs.isDir source_dir := by
    unfold FS.isDir
    rw [hsrc]
  unfold walkFiles
  rw [hdir]
  by_cases hd : fs.isDir source_dir
  · rw [if_pos hd, if_pos hd]
    show List.filterMap _ (new ++ fs.entries) = _
    rw [List.filterMap_append]
    have hnil : new.filterMap (fun pe =>
        match pe.2 with
        | Entry.file _ _ =>
            if source_dir <+: pe.1 ∧ pe.1 ≠ source_dir then some pe.1 else none
        | Entry.dir _ => none) = [] := by
      apply List.filterMap_eq_nil_iff.mpr
      intro pe hpe
      cases he : pe.2 with
      | file m c =>
        rw [if_neg (fun hcond => h pe hpe hcond.1)]
      | dir m => rfl
    rw [hnil, List.nil_append]
  · rw [if_neg hd, if_neg hd]

/-! ### Prefix bookkeeping for destination paths -/

theorem not_src_prefix_of_dest (source_dir root rel q : Path)
    (h1 : ¬ source_dir <+: root) (h2 : ¬ root <+: source_dir)
    (hq : q <+: root ++ rel) : ¬ source_dir <+: q := by
  intro hsq
  have hs3 : source_dir <+: root ++ rel := hsq.trans hq
  have hr3 : root <+: root ++ rel := List.prefix_append root rel
  rcases List.prefix_or_prefix_of_prefix hs3 hr3 with hc | hc
  · exact h1 hc
  · exact h2 hc

/-- Within one run the destination path of a task determines its source file,
as soon as the destination roots are pairwise prefix-free. -/
theorem plan_dest_source_unique (fs : FS) (source_dir : Path)
    (dest_dirs : List Path)
    (hroots : ∀ d ∈ dest_dirs, ∀ d' ∈ dest_dirs, d <+: d' → d = d')
    (s s' d : Path)
    (hm : (s, d) ∈ (walkFiles fs source_dir).flatMap
            (planFile fs source_dir dest_dirs))
    (hm' : (s', d) ∈ (walkFiles fs source_dir).flatMap
            (planFile fs source_dir dest_dirs)) : s = s' := by
  obtain ⟨p, hp, hpf⟩ := List.mem_flatMap.mp hm
  obtain ⟨p', hp', hpf'⟩ := List.mem_flatMap.mp hm'
  obtain ⟨rfl, root, hroot, hd, _⟩ := (planFile_mem fs source_dir dest_dirs p s d).mp hpf
  obtain ⟨rfl, root', hroot', hd', _⟩ :=
    (planFile_mem fs source_dir dest_dirs p' s' d).mp hpf'
  have hre : root = root' := by
    have hr1 : root <+: d := hd ▸ List.prefix_append root _
    have hr2 : root' <+: d := hd' ▸ List.prefix_append root' _
    rcases List.prefix_or_prefix_of_prefix hr1 hr2 with hc | hc
    · exact hroots root hroot root' hroot' hc
    · exact (hroots root' hroot' root hroot hc).symm
  subst hre
  have hrel : relativeTo s source_dir = relativeTo s' source_dir := by
    apply @List.append_cancel_left _ root
    rw [← hd, ← hd']
  have h1 := walk_append_rel fs source_dir s hp
  have h2 := walk_append_rel fs source_dir s' hp'
  rw [← h1, ← h2, hrel]

/-- After the fan-out completes with every copy succeeding, a destination
path written only from one source file holds that file's metadata. -/
theorem foldl_taskEffect_final (env : Env) (l : List (Path × Path)) (fs : FS)
    (s d : Path) (m c : Nat)
    (hok : ∀ t ∈ l, env.outcome t.1 t.2 = CopyOutcome.ok)
    (hmem : (s, d) ∈ l)
    (huniq : ∀ t ∈ l, t.2 = d → t.1 = s)
    (hs : fs.lookup s = some (Entry.file m c))
    (hnotdest : ∀ t ∈ l, t.2 ≠ s) :
    ((l.foldl (taskEffect env) fs)).lookup d = some (Entry.file m c) := by
  induction l generalizing fs with
  | nil => simp at hmem
  | cons t rest ih =>
    simp only [List.foldl_cons]
    have hs' : (taskEffect env fs t).lookup s = some (Entry.file m c) := by
      rw [taskEffect_lookup_ne env fs t s
        (fun hq => hnotdest t (List.mem_cons_self t rest) hq.symm)]
      exact hs
    by_cases hmr : (s, d) ∈ rest
    · exact ih (taskEffect env fs t)
        (fun u hu => hok u (List.mem_cons_of_mem t hu)) hmr
        (fun u hu => huniq u (List.mem_cons_of_mem t hu)) hs'
        (fun u hu => hnotdest u (List.mem_cons_of_mem t hu))
    · have ht : t = (s, d) := by
        rcases List.mem_cons.mp hmem with h1 | h1
        · exact h1.symm
        · exact absurd h1 hmr
      have hd1 : (taskEffect env fs t).lookup d = some (Entry.file m c) := by
        unfold taskEffect
        rw [hok t (List.mem_cons_self t rest), ht]
        exact FS.lookup_copy2_eq fs s d m c hs
      have hframe : ∀ u ∈ rest, u.2 ≠ d := by
        intro u hu hud
        have hu1 : u.1 = s := huniq u (List.mem_cons_of_mem t hu) hud
        have : u = (s, d) := Prod.ext hu1 hud
        exact hmr (this ▸ hu)
      rw [foldl_taskEffect_lookup env rest (taskEffect env fs t) d hframe]
      exact hd1

/-! ### Claim C1 -/

/-- C1: the staleness decision requires a copy exactly when the destination
path does not exist or the source modification time is strictly greater
than the destination's; equal timestamps are skipped, and every pair the
scan turns into a CopyTask passed the decision. -/
theorem staleness_requires_copy (env : Env) (fs : FS) (source_dir : Path)
    (dest_dirs : List Path) (files : List Path) (n : Nat) (s d : Path) :
    (should_copy fs s d = true ↔
      fs.pathExists d = false ∨ fs.st_mtime d < fs.st_mtime s) ∧
    (fs.pathExists d = true → fs.st_mtime s = fs.st_mtime d →
      should_copy fs s d = false) ∧
    ((s, d) ∈ (scanFiles env fs source_dir dest_dirs files n).1 →
      should_copy fs s d = true) := by
  refine ⟨should_copy_iff fs s d, should_copy_of_eq_mtime fs s d, ?_⟩
  intro hmem
  obtain ⟨p, _, hpf⟩ := scanFiles_mem env fs source_dir dest_dirs files n s d hmem
  obtain ⟨rfl, root, _, _, hc⟩ :=
    (planFile_mem fs source_dir dest_dirs p s d).mp hpf
  exact hc

/-- Fixture: a source file and a destination copy with equal timestamps. -/
def fsW1 : FS :=
  ⟨[(["s"], Entry.dir 0), (["s", "x"], Entry.file 5 1), (["d", "x"], Entry.file 5 2)]⟩

/-- Witness for C1 at a concrete store: the destination exists with the
same timestamp, so the pair is skipped. -/
theorem staleness_requires_copy_witness :
    should_copy fsW1 ["s", "x"] ["d", "x"] = false :=
  (staleness_requires_copy envId fsW1 ["s"] [["d"]] [] 0
    ["s", "x"] ["d", "x"]).2.1 (by decide) (by decide)

/-! ### Claim C2 -/

/-- C2 counterexample: with a missing SourceRoot the run does not fail at
all.  os.walk silently yields nothing, so the run emits TotalDiscovered 0
and ends with the ordinary success message, leaving the filesystem
unchanged — there is no scan/configuration error message. -/
theorem missing_source_run_succeeds :
    (sync_folders_for_gui envId ⟨[]⟩ ["s"] [["d"]] false).1 =
      [Event.progress (scanningMsg ["s"]), Event.total_files 0,
       Event.progress (foundMsg 0),
       Event.progress "Synchronization process completed successfully."] ∧
    (sync_folders_for_gui envId ⟨[]⟩ ["s"] [["d"]] false).2 = (⟨[]⟩ : FS) := by
  constructor <;> rfl

/-- C2 amended: when SourceRoot does not exist or is not a directory, no
CopyTask is produced or attempted and no destination state is modified,
but the run does not fail: the walk is empty, so the run reports zero
discovered files (when it reports a total at all) and terminates through
its normal paths. -/
theorem missing_source_no_tasks (env : Env) (fs : FS) (source_dir : Path)
    (dest_dirs : List Path) (dry_run : Bool)
    (hperm : ∀ l, (env.completionOrder l).Perm l)
    (hdir : fs.isDir source_dir = false) :
    (sync_folders_for_gui env fs source_dir dest_dirs dry_run).2 = fs ∧
    Event.file_copied ∉ (sync_folders_for_gui env fs source_dir dest_dirs dry_run).1 ∧
    ∀ n, Event.total_files n ∈
        (sync_folders_for_gui env fs source_dir dest_dirs dry_run).1 → n = 0 := by
  have hpend : env.completionOrder [] = [] := List.Perm.eq_nil (hperm [])
  unfold sync_folders_for_gui
  rw [walkFiles_of_not_dir fs source_dir hdir]
  simp only [scanFiles]
  by_cases hp : pollAt env.cancelFrom 0 = true
  · rw [if_pos hp]
    refine ⟨rfl, by simp, by simp⟩
  · rw [if_neg hp]
    cases dry_run with
    | true =>
      simp only [if_pos rfl, dryLoop]
      refine ⟨rfl, by simp, by simp⟩
    | false =>
      simp only [Bool.false_eq_true, if_false, makeParents, hpend, copyLoop]
      refine ⟨trivial, by simp, by simp⟩

/-- Witness for the amended C2 at a concrete missing source. -/
theorem missing_source_no_tasks_witness :
    (sync_folders_for_gui envId ⟨[]⟩ ["s"] [["d"]] true).2 = (⟨[]⟩ : FS) :=
  (missing_source_no_tasks envId ⟨[]⟩ ["s"] [["d"]] true
    (fun l => List.Perm.refl l) (by decide)).1

/-! ### Claim C8 -/

/-- The messages a run can end with: the scan-cancellation message, the
dry-run footer, the cancelled and completed summaries, and the catch-all
handler's report of an escaped exception. -/
def terminalMsg (m : String) : Prop :=
  m = "Scan cancelled." ∨ m = "--- DRY RUN MODE CONCLUDED ---" ∨
  m = "Synchronization cancelled by user." ∨
  m = "Synchronization process completed successfully." ∨
  ∃ e, m = unexpectedMsg e

theorem getLast?_append_singleton {α : Type} (l : List α) (a : α) :
    (l ++ [a]).getLast? = some a :=
  List.getLast?_concat l

/-- C8: the engine never lets an exception escape a run.  Whatever the
environment does — cancellation at any poll, any copy failures, any
parent-creation error routed to the catch-all handler — the run returns
normally, with a trace ending in one of the terminal log messages. -/
theorem run_always_terminates (env : Env) (fs : FS) (source_dir : Path)
    (dest_dirs : List Path) (dry_run : Bool) :
    ∃ m, ((sync_folders_for_gui env fs source_dir dest_dirs dry_run).1).getLast? =
        some (Event.progress m) ∧ terminalMsg m := by
  unfold sync_folders_for_gui
  by_cases hp : pollAt env.cancelFrom
      (scanFiles env fs source_dir dest_dirs (walkFiles fs source_dir) 0).2 = true
  · rw [if_pos hp]
    exact ⟨"Scan cancelled.", rfl, Or.inl rfl⟩
  · rw [if_neg hp]
    cases dry_run with
    | true =>
      simp only [if_pos rfl]
      refine ⟨"--- DRY RUN MODE CONCLUDED ---", ?_, Or.inr (Or.inl rfl)⟩
      rw [List.append_assoc]
      rw [show [Event.progress "--- DRY RUN MODE CONCLUDED ---"] =
        [] ++ [Event.progress "--- DRY RUN MODE CONCLUDED ---"] from rfl]
      rw [← List.append_assoc, ← List.append_assoc]
      exact getLast?_append_singleton _ _
    | false =>
      simp only [Bool.false_eq_true, if_false]
      cases hmk : makeParents fs
          (scanFiles env fs source_dir dest_dirs (walkFiles fs source_dir) 0).1 with
      | mk fs1 err =>
        cases err with
        | some e =>
          exact ⟨unexpectedMsg e, rfl, Or.inr (Or.inr (Or.inr (Or.inr ⟨e, rfl⟩)))⟩
        | none =>
          by_cases hp2 : pollAt env.cancelFrom
              (copyLoop env (env.completionOrder
                (scanFiles env fs source_dir dest_dirs (walkFiles fs source_dir) 0).1)
                fs1 ((scanFiles env fs source_dir dest_dirs (walkFiles fs source_dir) 0).2
                  + 1)).2.2 = true
          · refine ⟨"Synchronization cancelled by user.", ?_,
              Or.inr (Or.inr (Or.inl rfl))⟩
            simp only [hp2, if_pos rfl]
            exact getLast?_append_singleton _ _
          · refine ⟨"Synchronization process completed successfully.", ?_,
              Or.inr (Or.inr (Or.inr (Or.inl rfl)))⟩
            simp only [hp2]
            rw [if_neg (by simp [hp2])]
            exact getLast?_append_singleton _ _

/-! ### Claim C3 -/

/-- C3: in every run (dry or real, completed or cancelled), when a
TotalDiscovered(count) event is emitted it precedes every FileCompleted
event, and the number of FileCompleted events never exceeds that count. -/
theorem total_bounds_completions (env : Env) (fs : FS) (source_dir : Path)
    (dest_dirs : List Path) (dry_run : Bool)
    (hperm : ∀ l, (env.completionOrder l).Perm l) :
    ∀ n, Event.total_files n ∈
        (sync_folders_for_gui env fs source_dir dest_dirs dry_run).1 →
      ((sync_folders_for_gui env fs source_dir dest_dirs dry_run).1).count
          Event.file_copied ≤ n ∧
      ∃ pre post,
        (sync_folders_for_gui env fs source_dir dest_dirs dry_run).1 =
          pre ++ Event.total_files n :: post ∧ Event.file_copied ∉ pre := by
  unfold sync_folders_for_gui
  by_cases hp : pollAt env.cancelFrom
      (scanFiles env fs source_dir dest_dirs (walkFiles fs source_dir) 0).2 = true
  · rw [if_pos hp]
    intro n hmem
    simp at hmem
  · rw [if_neg hp]
    by_cases hdry : dry_run = true
    · rw [if_pos hdry]
      intro n hmem
      have hn : n = (scanFiles env fs source_dir dest_dirs
          (walkFiles fs source_dir) 0).1.length := by
        rcases List.mem_append.mp hmem with h1 | h1
        · rcases List.mem_append.mp h1 with h2 | h2
          · simp only [List.mem_cons] at h2
            rcases h2 with h3 | h3 | h3 | h3
            · exact Event.noConfusion h3
            · exact (Event.total_files.injEq _ _ ▸ h3)
            · exact Event.noConfusion h3
            · simp at h3
          · exact absurd h2 (dryLoop_no_total env _ _ n)
        · simp at h1
      subst hn
      constructor
      · rw [List.count_append, List.count_append]
        have h1 : ([Event.progress (scanningMsg source_dir),
            Event.total_files (scanFiles env fs source_dir dest_dirs
              (walkFiles fs source_dir) 0).1.length,
            Event.progress "--- DRY RUN MODE ENABLED ---"]).count Event.file_copied
            = 0 := by simp
        have h2 := dryLoop_count_le env (scanFiles env fs source_dir dest_dirs
          (walkFiles fs source_dir) 0).1 ((scanFiles env fs source_dir dest_dirs
          (walkFiles fs source_dir) 0).2 + 1)
        have h3 : ([Event.progress "--- DRY RUN MODE CONCLUDED ---"]).count
            Event.file_copied = 0 := by simp
        omega
      · refine ⟨[Event.progress (scanningMsg source_dir)],
          Event.progress "--- DRY RUN MODE ENABLED ---" ::
            ((dryLoop env (scanFiles env fs source_dir dest_dirs
              (walkFiles fs source_dir) 0).1 ((scanFiles env fs source_dir dest_dirs
              (walkFiles fs source_dir) 0).2 + 1)).1 ++
            [Event.progress "--- DRY RUN MODE CONCLUDED ---"]), ?_, by simp⟩
        simp
    · rw [if_neg hdry]
      cases hmk : makeParents fs
          (scanFiles env fs source_dir dest_dirs (walkFiles fs source_dir) 0).1 with
      | mk fs1 err =>
        cases err with
        | some e =>
          intro n hmem
          have hn : n = (scanFiles env fs source_dir dest_dirs
              (walkFiles fs source_dir) 0).1.length := by
            simp only [List.mem_cons] at hmem
            rcases hmem with h3 | h3 | h3 | h3 | h3
            · exact Event.noConfusion h3
            · exact (Event.total_files.injEq _ _ ▸ h3)
            · exact Event.noConfusion h3
            · exact Event.noConfusion h3
            · simp at h3
          subst hn
          refine ⟨by simp [List.count_cons], ?_⟩
          exact ⟨[Event.progress (scanningMsg source_dir)],
            [Event.progress (foundMsg (scanFiles env fs source_dir dest_dirs
              (walkFiles fs source_dir) 0).1.length),
             Event.progress (unexpectedMsg e)], by simp, by simp⟩
        | none =>
          intro n hmem
          have hn : n = (scanFiles env fs source_dir dest_dirs
              (walkFiles fs source_dir) 0).1.length := by
            rcases List.mem_append.mp hmem with h1 | h1
            · rcases List.mem_append.mp h1 with h2 | h2
              · simp only [List.mem_cons] at h2
                rcases h2 with h3 | h3 | h3 | h3
                · exact Event.noConfusion h3
                · exact (Event.total_files.injEq _ _ ▸ h3)
                · exact Event.noConfusion h3
                · simp at h3
              · exact absurd h2 (copyLoop_no_total env _ _ _ n)
            · rcases List.mem_cons.mp h1 with h2 | h2
              · exact Event.noConfusion h2
              · simp at h2
          subst hn
          constructor
          · rw [List.count_append, List.count_append]
            have h1 : ([Event.progress (scanningMsg source_dir),
                Event.total_files (scanFiles env fs source_dir dest_dirs
                  (walkFiles fs source_dir) 0).1.length,
                Event.progress (foundMsg (scanFiles env fs source_dir dest_dirs
                  (walkFiles fs source_dir) 0).1.length)]).count Event.file_copied
                = 0 := by simp
            have h2 := copyLoop_count_le env (env.completionOrder
              (scanFiles env fs source_dir dest_dirs (walkFiles fs source_dir) 0).1)
              fs1 ((scanFiles env fs source_dir dest_dirs
                (walkFiles fs source_dir) 0).2 + 1)
            have h4 := (hperm (scanFiles env fs source_dir dest_dirs
              (walkFiles fs source_dir) 0).1).length_eq
            have h3 : ∀ m : String, ([Event.progress m]).count Event.file_copied = 0 := by
              intro m; simp
            rw [h1, h3]
            omega
          · refine ⟨[Event.progress (scanningMsg source_dir)],
              Event.progress (foundMsg (scanFiles env fs source_dir dest_dirs
                (walkFiles fs source_dir) 0).1.length) ::
              ((copyLoop env (env.completionOrder (scanFiles env fs source_dir
                dest_dirs (walkFiles fs source_dir) 0).1) fs1
                ((scanFiles env fs source_dir dest_dirs
                  (walkFiles fs source_dir) 0).2 + 1)).1 ++
              [Event.progress (if pollAt env.cancelFrom (copyLoop env
                (env.completionOrder (scanFiles env fs source_dir dest_dirs
                  (walkFiles fs source_dir) 0).1) fs1
                ((scanFiles env fs source_dir dest_dirs
                  (walkFiles fs source_dir) 0).2 + 1)).2.2 = true then
                  "Synchronization cancelled by user."
                else "Synchronization process completed successfully.")]),
              by simp, by simp⟩

/-- Fixture: one source directory with one file, one missing destination. -/
def fsW2 : FS := ⟨[(["s"], Entry.dir 0), (["s", "x"], Entry.file 5 1)]⟩

/-- Witness for C3 on a run that copies one file. -/
theorem total_bounds_completions_witness :
    ((sync_folders_for_gui envId fsW2 ["s"] [["d"]] false).1).count
      Event.file_copied ≤ 1 :=
  ((total_bounds_completions envId fsW2 ["s"] [["d"]] false
    (fun l => List.Perm.refl l)) 1 (by decide)).1

/-! ### Claim C4 -/

/-- C6: failure isolation in the copy batch.  With no cancellation, every
submitted task is polled and processed whatever the other tasks did; the
trace is exactly the concatenation of the per-task events in completion
order; the FileCompleted count equals the number of successful tasks (so a
failing task never emits FileCompleted); a failing task that is not a
same-file condition contributes exactly one log message naming the file
and the failure; a same-file failure contributes no event at all. -/
theorem batch_failure_isolation (env : Env) (pending : List (Path × Path))
    (fs : FS) (n : Nat) (hnc : env.cancelFrom = none) :
    (copyLoop env pending fs n).1 = pending.flatMap (taskEvents env) ∧
    (copyLoop env pending fs n).2.2 = n + pending.length ∧
    ((copyLoop env pending fs n).1).count Event.file_copied =
      pending.countP (fun t => env.outcome t.1 t.2 == CopyOutcome.ok) ∧
    (∀ t ∈ pending, ∀ e, env.outcome t.1 t.2 = CopyOutcome.err e →
      Event.progress (errorCopyingMsg t.1 e) ∈ (copyLoop env pending fs n).1 ∧
      taskEvents env t = [Event.progress (errorCopyingMsg t.1 e)]) ∧
    (∀ t ∈ pending, env.outcome t.1 t.2 = CopyOutcome.sameFile →
      taskEvents env t = []) := by
  have hpoll : ∀ i, pollAt env.cancelFrom i = false := by
    intro i
    rw [hnc]
    rfl
  have hrun := copyLoop_run_all env pending fs n (fun j _ => hpoll _)
  rw [hrun]
  refine ⟨rfl, rfl, flatMap_taskEvents_count env pending, ?_, ?_⟩
  · intro t ht e he
    have hev : taskEvents env t = [Event.progress (errorCopyingMsg t.1 e)] := by
      unfold taskEvents
      rw [he]
    exact ⟨List.mem_flatMap.mpr ⟨t, ht, by rw [hev]; simp⟩, hev⟩
  · intro t ht he
    unfold taskEvents
    rw [he]

/-- Fixture environment: one failing copy, one same-file copy, one success. -/
def envMix : Env where
  cancelFrom := none
  outcome := fun s _ =>
    if s = ["s", "a"] then CopyOutcome.err "Permission denied"
    else if s = ["s", "b"] then CopyOutcome.sameFile
    else CopyOutcome.ok
  completionOrder := id
  started := fun _ _ => false

/-- Witness for C6: in a batch of three tasks whose first fails and whose
second is a same-file condition, exactly the third emits FileCompleted. -/
theorem batch_failure_isolation_witness :
    ((copyLoop envMix [(["s", "a"], ["d", "a"]), (["s", "b"], ["d", "b"]),
      (["s", "c"], ["d", "c"])] ⟨[]⟩ 0).1).count Event.file_copied = 1 := by
  have h := batch_failure_isolation envMix
    [(["s", "a"], ["d", "a"]), (["s", "b"], ["d", "b"]), (["s", "c"], ["d", "c"])]
    ⟨[]⟩ 0 rfl
  rw [h.2.2.1]
  decide

/-! ### Claim C7 -/

/-- C7: multi-destination independence.  The staleness decision for a file
against destination A never reads destination B: for a source tree holding
exactly one file that is strictly fresher than its copy under root A but
older-or-equal under root B, the scan produces exactly the one CopyTask
towards A, and the whole (non-dry) run leaves the B copy untouched. -/
theorem destination_independence (env : Env) (fs : FS)
    (source_dir A B p : Path)
    (hperm : ∀ l, (env.completionOrder l).Perm l)
    (hnc : env.cancelFrom = none)
    (hAB : A ≠ B)
    (hwalk : walkFiles fs source_dir = [p])
    (hA : should_copy fs p (A ++ relativeTo p source_dir) = true)
    (hB : should_copy fs p (B ++ relativeTo p source_dir) = false) :
    (scanFiles env fs source_dir [A, B] (walkFiles fs source_dir) 0).1 =
      [(p, A ++ relativeTo p source_dir)] ∧
    (sync_folders_for_gui env fs source_dir [A, B] false).2.lookup
        (B ++ relativeTo p source_dir) =
      fs.lookup (B ++ relativeTo p source_dir) := by
  have hpoll : ∀ i, pollAt env.cancelFrom i = false := by
    intro i
    rw [hnc]
    rfl
  have hscan := scanFiles_run_all env fs source_dir [A, B]
    (walkFiles fs source_dir) 0 (fun j _ => hpoll _)
  have hplan : (scanFiles env fs source_dir [A, B]
      (walkFiles fs source_dir) 0).1 = [(p, A ++ relativeTo p source_dir)] := by
    rw [hscan, hwalk]
    simp [planFile, hA, hB]
  refine ⟨hplan, ?_⟩
  have hBex : ∃ e, fs.lookup (B ++ relativeTo p source_dir) = some e := by
    have h1 := pathExists_of_not_should_copy fs p (B ++ relativeTo p source_dir) hB
    unfold FS.pathExists at h1
    exact Option.isSome_iff_exists.mp h1
  obtain ⟨eB, heB⟩ := hBex
  have hABrel : A ++ relativeTo p source_dir ≠ B ++ relativeTo p source_dir := by
    intro hcontra
    exact hAB (List.append_cancel_right hcontra)
  have hplan2 : (walkFiles fs source_dir).flatMap (planFile fs source_dir [A, B]) =
      [(p, A ++ relativeTo p source_dir)] := by
    rw [hwalk]
    simp [planFile, hA, hB]
  simp only [sync_folders_for_gui, hscan, hplan2, hpoll, Bool.false_eq_true, if_false]
  cases hmk : makeParents fs [(p, A ++ relativeTo p source_dir)] with
  | mk fs1 err =>
    have hfs1 : fs1.lookup (B ++ relativeTo p source_dir) = some eB := by
      have := makeParents_lookup_mono fs [(p, A ++ relativeTo p source_dir)]
        (B ++ relativeTo p source_dir) eB heB
      rw [hmk] at this
      exact this
    cases err with
    | some e =>
      dsimp only
      rw [hfs1, heB]
    | none =>
      have hpend : env.completionOrder [(p, A ++ relativeTo p source_dir)] =
          [(p, A ++ relativeTo p source_dir)] :=
        List.perm_singleton.mp (hperm [(p, A ++ relativeTo p source_dir)])
      have hcopy := copyLoop_run_all env [(p, A ++ relativeTo p source_dir)] fs1
        (0 + (walkFiles fs source_dir).length + 1) (fun j _ => hpoll _)
      dsimp only
      rw [hpend, hcopy]
      dsimp only
      rw [foldl_taskEffect_lookup env _ fs1 _ (by
        intro t ht
        rw [List.mem_singleton.mp ht]
        exact hABrel)]
      rw [hfs1, heB]

/-- Fixture: one source file, fresher than its copy under root a, staler
than its copy under root b. -/
def fsW3 : FS :=
  ⟨[(["s"], Entry.dir 0), (["s", "x"], Entry.file 5 1),
    (["a", "x"], Entry.file 3 7), (["b", "x"], Entry.file 9 8)]⟩

/-- Witness for C7 on the two-destination fixture. -/
theorem destination_independence_witness :
    (sync_folders_for_gui envId fsW3 ["s"] [["a"], ["b"]] false).2.lookup
        (["b"] ++ relativeTo ["s", "x"] ["s"]) =
      fsW3.lookup (["b"] ++ relativeTo ["s", "x"] ["s"]) :=
  (destination_independence envId fsW3 ["s"] ["a"] ["b"] ["s", "x"]
    (fun l => List.Perm.refl l) rfl (by decide) (by decide) (by decide)
    (by decide)).2

/-! ### Claim C9 -/

/-- C9: cancellation observed during the Copying phase.  When the flag
first reads true at the k-th poll of the result loop, the events of
exactly the first k completed tasks were delivered; all pending futures
are cancelled, so that of the remaining tasks only those a worker had
already started still reach the store while the rest are dropped with no
effect and no event, and the run ends with the cancellation message. -/
theorem cancellation_in_copy_phase (env : Env) (fs : FS) (source_dir : Path)
    (dest_dirs : List Path) (k : Nat) (plan pending : List (Path × Path))
    (hplan : plan = (walkFiles fs source_dir).flatMap
      (planFile fs source_dir dest_dirs))
    (hpend : pending = env.completionOrder plan)
    (hc : env.cancelFrom = some ((walkFiles fs source_dir).length + 1 + k))
    (hk : k < pending.length)
    (hmkOk : (makeParents fs plan).2 = none) :
    ((sync_folders_for_gui env fs source_dir dest_dirs false).1).getLast? =
      some (Event.progress "Synchronization cancelled by user.") ∧
    ((sync_folders_for_gui env fs source_dir dest_dirs false).1).count
        Event.file_copied =
      (pending.take k).countP (fun t => env.outcome t.1 t.2 == CopyOutcome.ok) ∧
    (sync_folders_for_gui env fs source_dir dest_dirs false).2 =
      applyStarted env ((pending.take k).foldl (taskEffect env)
        (makeParents fs plan).1) (pending.drop k) ∧
    ∀ q, (∀ t ∈ pending.take k, t.2 ≠ q) →
        (∀ t ∈ pending.drop k, env.started t.1 t.2 = true → t.2 ≠ q) →
      ((sync_folders_for_gui env fs source_dir dest_dirs false).2).lookup q =
        ((makeParents fs plan).1).lookup q := by
  have hscan := scanFiles_run_all env fs source_dir dest_dirs
    (walkFiles fs source_dir) 0 (fun j hj => by
      rw [hc]
      simp only [pollAt, decide_eq_false_iff_not]
      omega)
  have hp42 : pollAt env.cancelFrom (0 + (walkFiles fs source_dir).length) = false := by
    rw [hc]
    simp only [pollAt, decide_eq_false_iff_not]
    omega
  have hc' : env.cancelFrom =
      some (0 + (walkFiles fs source_dir).length + 1 + k) := by
    rw [hc]
    congr 1
    omega
  simp only [sync_folders_for_gui, hscan, ← hplan, hp42, Bool.false_eq_true, if_false]
  cases hmk2 : makeParents fs plan with
  | mk fs1 err =>
    rw [hmk2] at hmkOk
    cases err with
    | some e => exact Option.noConfusion hmkOk
    | none =>
      have hcut := copyLoop_cancel_at env (env.completionOrder plan) fs1
        (0 + (walkFiles fs source_dir).length + 1) k hc' (hpend ▸ hk)
      have hlast : pollAt env.cancelFrom
          (0 + (walkFiles fs source_dir).length + 1 + k + 1) = true := by
        rw [hc]
        simp only [pollAt, decide_eq_true_eq]
        omega
      dsimp only
      rw [hcut]
      dsimp only
      rw [hlast]
      simp only [if_pos rfl]
      rw [← hpend]
      refine ⟨getLast?_append_singleton _ _, ?_, rfl, ?_⟩
      · simp only [List.count_append]
        rw [flatMap_taskEvents_count]
        simp [List.count_cons]
      · intro q h1 h2
        rw [applyStarted_lookup env _ (pending.drop k) q h2,
          foldl_taskEffect_lookup env (pending.take k) fs1 q
            (fun t ht hq => h1 t ht hq)]

/-- Environment for the C9 witness: cancellation becomes visible at the
first poll of the result loop of a one-file run. -/
def envC9 : Env where
  cancelFrom := some 2
  outcome := fun _ _ => CopyOutcome.ok
  completionOrder := id
  started := fun _ _ => false

/-- Witness for C9: the one-file run cancelled at the first copy poll ends
with the cancellation message. -/
theorem cancellation_in_copy_phase_witness :
    ((sync_folders_for_gui envC9 fsW2 ["s"] [["d"]] false).1).getLast? =
      some (Event.progress "Synchronization cancelled by user.") :=
  (cancellation_in_copy_phase envC9 fsW2 ["s"] [["d"]] 0
    [(["s", "x"], ["d", "x"])] [(["s", "x"], ["d", "x"])]
    (by decide) (by decide) (by decide) (by decide) (by decide)).1

/-! ### Claim C10 -/

theorem lookupEntry_append_or (new old : List (Path × Entry)) (q : Path)
    (h : ∀ pe ∈ new, pe.2 = Entry.dir 0) :
    lookupEntry (new ++ old) q = lookupEntry old q ∨
      lookupEntry (new ++ old) q = some (Entry.dir 0) := by
  induction new with
  | nil => exact Or.inl rfl
  | cons pe rest ih =>
    simp only [List.cons_append, lookupEntry]
    by_cases hq : pe.1 = q
    · rw [if_pos hq]
      exact Or.inr (by rw [h pe (List.mem_cons_self pe rest)])
    · rw [if_neg hq]
      exact ih (fun x hx => h x (List.mem_cons_of_mem pe hx))

/-- Shape of a task produced by the scan. -/
theorem plan_mem_shape (fs : FS) (source_dir : Path) (dest_dirs : List Path)
    (s d : Path)
    (h : (s, d) ∈ (walkFiles fs source_dir).flatMap
      (planFile fs source_dir dest_dirs)) :
    s ∈ walkFiles fs source_dir ∧ ∃ root ∈ dest_dirs,
      d = root ++ relativeTo s source_dir ∧ should_copy fs s d = true := by
  obtain ⟨p, hp, hpf⟩ := List.mem_flatMap.mp h
  obtain ⟨rfl, root, hroot, hd, hc⟩ :=
    (planFile_mem fs source_dir dest_dirs p s d).mp hpf
  exact ⟨hp, root, hroot, hd, hc⟩

theorem relativeTo_ne_nil (fs : FS) (source_dir p : Path)
    (hp : p ∈ walkFiles fs source_dir) : relativeTo p source_dir ≠ [] := by
  obtain ⟨⟨t, rfl⟩, hne⟩ := walkFiles_mem fs source_dir p hp
  unfold relativeTo
  rw [List.drop_left]
  intro ht
  exact hne (by rw [ht, List.append_nil])

/-- C10: in every non-dry run that reaches the Copying phase, the parent
directories (with all missing ancestors) of every planned destination path
are created before any copy task is submitted; consequently a run that is
cancelled at the very first poll of the result loop, with no task started,
has copied nothing and emitted no FileCompleted, yet the directories
remain: the final store differs from the initial one only by directory
entries. -/
theorem parent_dirs_created_before_copies (env : Env) (fs : FS)
    (source_dir : Path) (dest_dirs : List Path) (plan : List (Path × Path))
    (hplan : plan = (walkFiles fs source_dir).flatMap
      (planFile fs source_dir dest_dirs))
    (hne : ∀ d ∈ dest_dirs, d ≠ [])
    (hc : env.cancelFrom = some ((walkFiles fs source_dir).length + 1))
    (hstart : ∀ s d, env.started s d = false)
    (hmkOk : (makeParents fs plan).2 = none) :
    (∀ t ∈ plan,
      ((sync_folders_for_gui env fs source_dir dest_dirs false).2).pathExists
        (parentDir t.2) = true) ∧
    Event.file_copied ∉ (sync_folders_for_gui env fs source_dir dest_dirs false).1 ∧
    (∀ q, ((sync_folders_for_gui env fs source_dir dest_dirs false).2).lookup q
        = fs.lookup q ∨
      ((sync_folders_for_gui env fs source_dir dest_dirs false).2).lookup q =
        some (Entry.dir 0)) := by
  have hscan := scanFiles_run_all env fs source_dir dest_dirs
    (walkFiles fs source_dir) 0 (fun j hj => by
      rw [hc]
      simp only [pollAt, decide_eq_false_iff_not]
      omega)
  have hp42 : pollAt env.cancelFrom (0 + (walkFiles fs source_dir).length) = false := by
    rw [hc]
    simp only [pollAt, decide_eq_false_iff_not]
    omega
  have hfirst : pollAt env.cancelFrom
      (0 + (walkFiles fs source_dir).length + 1) = true := by
    rw [hc]
    simp only [pollAt, decide_eq_true_eq]
    omega
  simp only [sync_folders_for_gui, hscan, ← hplan, hp42, Bool.false_eq_true, if_false]
  cases hmk2 : makeParents fs plan with
  | mk fs1 err =>
    rw [hmk2] at hmkOk
    cases err with
    | some e => exact Option.noConfusion hmkOk
    | none =>
      have hloop : copyLoop env (env.completionOrder plan) fs1
          (0 + (walkFiles fs source_dir).length + 1) =
          ([], fs1, (copyLoop env (env.completionOrder plan) fs1
            (0 + (walkFiles fs source_dir).length + 1)).2.2) := by
        cases hcp : env.completionOrder plan with
        | nil => simp [copyLoop]
        | cons t rest =>
          simp only [copyLoop, hfirst, if_pos rfl]
          rw [applyStarted_of_none env fs1 (t :: rest) hstart]
          rfl
      dsimp only
      rw [hloop]
      dsimp only
      have hpost := makeParents_post fs plan (by rw [hmk2])
      refine ⟨?_, by simp, ?_⟩
      · intro t ht
        have hparent : parentDir t.2 ≠ [] := by
          obtain ⟨hpw, root, hroot, hd, _⟩ :=
            plan_mem_shape fs source_dir dest_dirs t.1 t.2 (hplan ▸ ht)
          have hrel := relativeTo_ne_nil fs source_dir t.1 hpw
          have hlen : 2 ≤ t.2.length := by
            rw [hd, List.length_append]
            have h1 : 1 ≤ root.length :=
              List.length_pos.mpr (hne root hroot)
            have h2 : 1 ≤ (relativeTo t.1 source_dir).length :=
              List.length_pos.mpr hrel
            omega
          apply List.ne_nil_of_length_pos
          unfold parentDir
          rw [List.length_dropLast]
          omega
        have := hpost t ht hparent
        rw [hmk2] at this
        exact this
      · intro q
        obtain ⟨new, hnew, hprop⟩ := makeParents_entries fs plan
        rw [hmk2] at hnew
        have : fs1.lookup q = lookupEntry (new ++ fs.entries) q := by
          unfold FS.lookup
          rw [hnew]
        rw [this]
        exact lookupEntry_append_or new fs.entries q
          (fun pe hpe => (hprop pe hpe).1)

/-- Witness for C10: the cancelled one-file run still created the missing
destination directory. -/
theorem parent_dirs_created_before_copies_witness :
    ((sync_folders_for_gui envC9 fsW2 ["s"] [["d"]] false).2).pathExists
      (parentDir ["d", "x"]) = true :=
  (parent_dirs_created_before_copies envC9 fsW2 ["s"] [["d"]]
    [(["s", "x"], ["d", "x"])] (by decide) (by decide) (by decide)
    (fun _ _ => rfl) (by decide)).1 (["s", "x"], ["d", "x"]) (by decide)

/-! ### Claim C5 -/

/-- Fixture for the C5 counterexample: destination root d/a is nested
inside destination root d, so the relative paths x (fresh, mtime 10) and
a/x (older, mtime 5) collide on the destination path d/a/x. -/
def fsC5 : FS :=
  ⟨[(["src"], Entry.dir 0), (["src", "a"], Entry.dir 0),
    (["src", "x"], Entry.file 10 1), (["src", "a", "x"], Entry.file 5 2)]⟩

/-- C5 counterexample: a first run over nested destination roots completes
successfully with all four copies succeeding, yet the second run over the
unchanged source still discovers one stale file (TotalDiscovered = 1, not
0): the colliding destination path keeps the mtime of whichever copy
finished last. -/
theorem second_run_not_empty :
    (((sync_folders_for_gui envId fsC5 ["src"] [["d"], ["d", "a"]] false).1).count
        Event.file_copied = 4 ∧
      ((sync_folders_for_gui envId fsC5 ["src"]
        [["d"], ["d", "a"]] false).1).getLast? =
        some (Event.progress "Synchronization process completed successfully.")) ∧
    Event.total_files 1 ∈
      (sync_folders_for_gui envId
        (sync_folders_for_gui envId fsC5 ["src"] [["d"], ["d", "a"]] false).2
        ["src"] [["d"], ["d", "a"]] false).1 ∧
    Event.total_files 0 ∉
      (sync_folders_for_gui envId
        (sync_folders_for_gui envId fsC5 ["src"] [["d"], ["d", "a"]] false).2
        ["src"] [["d"], ["d", "a"]] false).1 := by
  decide

theorem le_of_not_should_copy (fs : FS) (s d : Path)
    (h : should_copy fs s d = false) : fs.st_mtime s ≤ fs.st_mtime d := by
  unfold should_copy at h
  by_cases he : fs.pathExists d
  · rw [if_pos he] at h
    by_cases hle : fs.st_mtime s ≤ fs.st_mtime d
    · exact hle
    · rw [if_neg hle] at h
      exact Bool.noConfusion h
  · rw [if_neg he] at h
    exact Bool.noConfusion h

theorem should_copy_false_of_le (fs : FS) (s d : Path)
    (he : fs.pathExists d = true) (hle : fs.st_mtime s ≤ fs.st_mtime d) :
    should_copy fs s d = false := by
  unfold should_copy
  rw [if_pos he, if_pos hle]

theorem planFile_eq_nil (fs : FS) (source_dir : Path) (dest_dirs : List Path)
    (p : Path)
    (h : ∀ root ∈ dest_dirs,
      should_copy fs p (root ++ relativeTo p source_dir) = false) :
    planFile fs source_dir dest_dirs p = [] := by
  unfold planFile
  apply List.filterMap_eq_nil_iff.mpr
  intro root hroot
  simp only [h root hroot, Bool.false_eq_true, if_false]

theorem should_copy_congr (fs fs' : FS) (s d : Path)
    (hs : fs'.lookup s = fs.lookup s) (hd : fs'.lookup d = fs.lookup d) :
    should_copy fs' s d = should_copy fs s d := by
  unfold should_copy FS.pathExists FS.st_mtime
  rw [hs, hd]

theorem FS.eq_mk_of_entries (fs : FS) (l : List (Path × Entry))
    (h : fs.entries = l) : fs = ⟨l⟩ := by
  cases fs
  simpa using h

/-- C5 amended: idempotence holds when the destination roots are pairwise
prefix-free and disjoint from the source tree.  After a non-dry run in
which nothing cancels, parent creation succeeds and every copy succeeds,
the metadata-preserving copy leaves every planned destination with its
source's timestamp, and untouched pairs keep their old up-to-date
timestamps; a second run over the unchanged source then discovers zero
files (TotalDiscovered = 0).  (Without the disjointness hypotheses the
claim is false: see the counterexample with nested roots.) -/
theorem second_run_empty (env1 env2 : Env) (fs : FS) (source_dir : Path)
    (dest_dirs : List Path)
    (hperm : ∀ l, (env1.completionOrder l).Perm l)
    (hc1 : env1.cancelFrom = none)
    (hok : ∀ s d, env1.outcome s d = CopyOutcome.ok)
    (hc2 : env2.cancelFrom = none)
    (hroots : ∀ d ∈ dest_dirs, ∀ d' ∈ dest_dirs, d <+: d' → d = d')
    (hsd : ∀ d ∈ dest_dirs, ¬ source_dir <+: d ∧ ¬ d <+: source_dir)
    (hwf : ∀ p ∈ walkFiles fs source_dir, ∃ m c,
      fs.lookup p = some (Entry.file m c))
    (hmkOk : (makeParents fs ((walkFiles fs source_dir).flatMap
      (planFile fs source_dir dest_dirs))).2 = none) :
    Event.total_files 0 ∈
      (sync_folders_for_gui env2
        (sync_folders_for_gui env1 fs source_dir dest_dirs false).2
        source_dir dest_dirs false).1 := by
  have hpoll1 : ∀ i, pollAt env1.cancelFrom i = false := fun i => by
    rw [hc1]
    rfl
  have hscan1 := scanFiles_run_all env1 fs source_dir dest_dirs
    (walkFiles fs source_dir) 0 (fun j _ => hpoll1 _)
  cases hmk2 : makeParents fs ((walkFiles fs source_dir).flatMap
      (planFile fs source_dir dest_dirs)) with
  | mk fs1 err =>
    rw [hmk2] at hmkOk
    cases err with
    | some e => exact Option.noConfusion hmkOk
    | none =>
      have hcopy := copyLoop_run_all env1 (env1.completionOrder
        ((walkFiles fs source_dir).flatMap (planFile fs source_dir dest_dirs)))
        fs1 (0 + (walkFiles fs source_dir).length + 1) (fun j _ => hpoll1 _)
      have hfs2 : (sync_folders_for_gui env1 fs source_dir dest_dirs false).2 =
          (env1.completionOrder ((walkFiles fs source_dir).flatMap
            (planFile fs source_dir dest_dirs))).foldl (taskEffect env1) fs1 := by
        simp only [sync_folders_for_gui, hscan1, hpoll1, Bool.false_eq_true, if_false]
        rw [hmk2]
        dsimp only
        rw [hcopy]
      obtain ⟨newMk, hnewMk, hpropMk⟩ := makeParents_entries fs
        ((walkFiles fs source_dir).flatMap (planFile fs source_dir dest_dirs))
      rw [hmk2] at hnewMk
      obtain ⟨newCp, hnewCp, hpropCp⟩ := foldl_taskEffect_entries env1
        (env1.completionOrder ((walkFiles fs source_dir).flatMap
          (planFile fs source_dir dest_dirs))) fs1
      have hmempend : ∀ t, t ∈ env1.completionOrder ((walkFiles fs source_dir).flatMap
          (planFile fs source_dir dest_dirs)) ↔
          t ∈ (walkFiles fs source_dir).flatMap (planFile fs source_dir dest_dirs) :=
        fun t => (hperm _).mem_iff
      have hdestfree : ∀ t, t ∈ (walkFiles fs source_dir).flatMap
          (planFile fs source_dir dest_dirs) → ¬ source_dir <+: t.2 := by
        intro t ht hcontra
        obtain ⟨hpw, root, hroot, hd, _⟩ :=
          plan_mem_shape fs source_dir dest_dirs t.1 t.2 ht
        exact not_src_prefix_of_dest source_dir root (relativeTo t.1 source_dir) t.2
          (hsd root hroot).1 (hsd root hroot).2 (hd ▸ List.prefix_refl _) hcontra
      have hmkfree : ∀ pe ∈ newMk, ¬ source_dir <+: pe.1 := by
        intro pe hpe hcontra
        obtain ⟨_, t, ht, hpref⟩ := hpropMk pe hpe
        obtain ⟨hpw, root, hroot, hd, _⟩ :=
          plan_mem_shape fs source_dir dest_dirs t.1 t.2 ht
        have hq : pe.1 <+: root ++ relativeTo t.1 source_dir :=
          hd ▸ (hpref.trans (List.dropLast_prefix t.2))
        exact not_src_prefix_of_dest source_dir root (relativeTo t.1 source_dir) pe.1
          (hsd root hroot).1 (hsd root hroot).2 hq hcontra
      have hcpfree : ∀ pe ∈ newCp, ¬ source_dir <+: pe.1 := by
        intro pe hpe hcontra
        obtain ⟨⟨t, ht, hpe1⟩, _⟩ := hpropCp pe hpe
        exact hdestfree t ((hmempend t).mp ht) (hpe1 ▸ hcontra)
      have hfs2entries : ((env1.completionOrder ((walkFiles fs source_dir).flatMap
          (planFile fs source_dir dest_dirs))).foldl (taskEffect env1) fs1).entries =
          (newCp ++ newMk) ++ fs.entries := by
        rw [hnewCp, hnewMk, List.append_assoc]
      have hfold := FS.eq_mk_of_entries _ _ hfs2entries
      have hnewfree : ∀ pe ∈ newCp ++ newMk, ¬ source_dir <+: pe.1 := by
        intro pe hpe
        rcases List.mem_append.mp hpe with h | h
        exacts [hcpfree pe h, hmkfree pe h]
      have hwalk2 : walkFiles ((env1.completionOrder ((walkFiles fs source_dir).flatMap
          (planFile fs source_dir dest_dirs))).foldl (taskEffect env1) fs1) source_dir =
          walkFiles fs source_dir := by
        rw [hfold]
        exact walkFiles_extend fs (newCp ++ newMk) source_dir hnewfree
      have hsrcstable : ∀ q, source_dir <+: q →
          ((env1.completionOrder ((walkFiles fs source_dir).flatMap
            (planFile fs source_dir dest_dirs))).foldl (taskEffect env1) fs1).lookup q =
          fs.lookup q := by
        intro q hq
        rw [hfold]
        exact lookup_extend fs (newCp ++ newMk) q
          (fun pe hpe hcontra => hnewfree pe hpe (hcontra ▸ hq))
      have hpair : ∀ p ∈ walkFiles fs source_dir, ∀ root ∈ dest_dirs,
          should_copy ((env1.completionOrder ((walkFiles fs source_dir).flatMap
            (planFile fs source_dir dest_dirs))).foldl (taskEffect env1) fs1) p
            (root ++ relativeTo p source_dir) = false := by
        intro p hp root hroot
        have hsp : source_dir <+: p := (walkFiles_mem fs source_dir p hp).1
        obtain ⟨m, c, hsl⟩ := hwf p hp
        have hps : ((env1.completionOrder ((walkFiles fs source_dir).flatMap
            (planFile fs source_dir dest_dirs))).foldl (taskEffect env1) fs1).lookup p =
            some (Entry.file m c) := by
          rw [hsrcstable p hsp]
          exact hsl
        by_cases hsc : should_copy fs p (root ++ relativeTo p source_dir) = true
        · have hmem : (p, root ++ relativeTo p source_dir) ∈
              (walkFiles fs source_dir).flatMap (planFile fs source_dir dest_dirs) :=
            List.mem_flatMap.mpr ⟨p, hp,
              (planFile_mem fs source_dir dest_dirs p p _).mpr
                ⟨rfl, root, hroot, rfl, hsc⟩⟩
          have hfs1p : fs1.lookup p = some (Entry.file m c) := by
            have := makeParents_lookup_mono fs ((walkFiles fs source_dir).flatMap
              (planFile fs source_dir dest_dirs)) p _ hsl
            rw [hmk2] at this
            exact this
          have hfinal := foldl_taskEffect_final env1 (env1.completionOrder
              ((walkFiles fs source_dir).flatMap (planFile fs source_dir dest_dirs)))
            fs1 p (root ++ relativeTo p source_dir) m c
            (fun t _ => hok t.1 t.2)
            ((hmempend _).mpr hmem)
            (fun t ht hteq => plan_dest_source_unique fs source_dir dest_dirs hroots
              t.1 p _ (by
                have := (hmempend t).mp ht
                rw [← hteq]
                exact this) hmem)
            hfs1p
            (fun t ht hteq => by
              have htplan := (hmempend t).mp ht
              have hfree := hdestfree t htplan
              rw [hteq] at hfree
              exact hfree hsp)
          have hexists : ((env1.completionOrder ((walkFiles fs source_dir).flatMap
              (planFile fs source_dir dest_dirs))).foldl (taskEffect env1)
                fs1).pathExists (root ++ relativeTo p source_dir) = true := by
            unfold FS.pathExists
            rw [hfinal]
            rfl
          have hm2 : ((env1.completionOrder ((walkFiles fs source_dir).flatMap
              (planFile fs source_dir dest_dirs))).foldl (taskEffect env1)
                fs1).st_mtime (root ++ relativeTo p source_dir) = m := by
            unfold FS.st_mtime
            rw [hfinal]
          have hm1 : ((env1.completionOrder ((walkFiles fs source_dir).flatMap
              (planFile fs source_dir dest_dirs))).foldl (taskEffect env1)
                fs1).st_mtime p = m := by
            unfold FS.st_mtime
            rw [hps]
          exact should_copy_false_of_le _ _ _ hexists (by rw [hm1, hm2])
        · have hscf : should_copy fs p (root ++ relativeTo p source_dir) = false := by
            cases h2 : should_copy fs p (root ++ relativeTo p source_dir)
            · rfl
            · exact absurd h2 hsc
          have hdl : ∃ e, fs.lookup (root ++ relativeTo p source_dir) = some e := by
            have h1 := pathExists_of_not_should_copy fs p _ hscf
            unfold FS.pathExists at h1
            exact Option.isSome_iff_exists.mp h1
          obtain ⟨eD, heD⟩ := hdl
          have hfs1d : fs1.lookup (root ++ relativeTo p source_dir) = some eD := by
            have := makeParents_lookup_mono fs ((walkFiles fs source_dir).flatMap
              (planFile fs source_dir dest_dirs)) _ _ heD
            rw [hmk2] at this
            exact this
          have hframe : ∀ t ∈ env1.completionOrder ((walkFiles fs source_dir).flatMap
              (planFile fs source_dir dest_dirs)),
              t.2 ≠ root ++ relativeTo p source_dir := by
            intro t ht hteq
            have htplan := (hmempend t).mp ht
            obtain ⟨hpw, root', hroot', hd', hsc'⟩ :=
              plan_mem_shape fs source_dir dest_dirs t.1 t.2 htplan
            have hre : root' = root := by
              have hr1 : root' <+: t.2 := hd' ▸ List.prefix_append root' _
              have hr2 : root <+: t.2 := hteq ▸ List.prefix_append root _
              rcases List.prefix_or_prefix_of_prefix hr1 hr2 with hcc | hcc
              · exact hroots root' hroot' root hroot hcc
              · exact (hroots root hroot root' hroot' hcc).symm
            have hrel : relativeTo t.1 source_dir = relativeTo p source_dir := by
              apply @List.append_cancel_left _ root
              rw [← hre] at hteq ⊢
              rw [← hd', hteq]
            have hts : t.1 = p := by
              have h1 := walk_append_rel fs source_dir t.1 hpw
              have h2 := walk_append_rel fs source_dir p hp
              rw [← h1, ← h2, hrel]
            rw [hts, hd', hre, hrel] at hsc'
            exact absurd hsc' (by rw [hscf]; simp)
          have hstable : ((env1.completionOrder ((walkFiles fs source_dir).flatMap
              (planFile fs source_dir dest_dirs))).foldl (taskEffect env1)
                fs1).lookup (root ++ relativeTo p source_dir) =
              fs.lookup (root ++ relativeTo p source_dir) := by
            rw [foldl_taskEffect_lookup env1 _ fs1 _ hframe, hfs1d, heD]
          rw [should_copy_congr fs _ p (root ++ relativeTo p source_dir)
            (hsrcstable p hsp) hstable]
          exact hscf
      have hplan2 : (walkFiles ((env1.completionOrder ((walkFiles fs source_dir).flatMap
          (planFile fs source_dir dest_dirs))).foldl (taskEffect env1) fs1)
            source_dir).flatMap
          (planFile ((env1.completionOrder ((walkFiles fs source_dir).flatMap
            (planFile fs source_dir dest_dirs))).foldl (taskEffect env1) fs1)
            source_dir dest_dirs) = [] := by
        rw [hwalk2]
        apply List.flatMap_eq_nil_iff.mpr
        intro p hp
        exact planFile_eq_nil _ source_dir dest_dirs p
          (fun root hroot => hpair p hp root hroot)
      have hpoll2 : ∀ i, pollAt env2.cancelFrom i = false := fun i => by
        rw [hc2]
        rfl
      have hscan2 := scanFiles_run_all env2 ((env1.completionOrder
          ((walkFiles fs source_dir).flatMap (planFile fs source_dir dest_dirs))).foldl
          (taskEffect env1) fs1) source_dir dest_dirs
        (walkFiles ((env1.completionOrder ((walkFiles fs source_dir).flatMap
          (planFile fs source_dir dest_dirs))).foldl (taskEffect env1) fs1) source_dir)
        0 (fun j _ => hpoll2 _)
      rw [hfs2]
      simp only [sync_folders_for_gui, hscan2, hplan2, hpoll2, Bool.false_eq_true,
        if_false]
      dsimp only [makeParents]
      simp

/-- Witness for the amended C5: after syncing the one-file fixture into a
disjoint destination root, a second run discovers zero files. -/
theorem second_run_empty_witness :
    Event.total_files 0 ∈
      (sync_folders_for_gui envId
        (sync_folders_for_gui envId fsW2 ["s"] [["d"]] false).2
        ["s"] [["d"]] false).1 :=
  second_run_empty envId envId fsW2 ["s"] [["d"]]
    (fun l => List.Perm.refl l) rfl (fun _ _ => rfl) rfl
    (by decide) (by decide)
    (by
      intro p hp
      have hpx : p = ["s", "x"] := by
        have hw : walkFiles fsW2 ["s"] = [["s", "x"]] := by decide
        rw [hw] at hp
        simpa using hp
      rw [hpx]
      exact ⟨5, 1, rfl⟩)
    (by decide)

end PySync
